import Mathlib

/-!
Verification development for the snapconfig precompiled configuration loader.

The repository ships a Python test suite and benchmark around a native
extension module; the engine itself (binary format, writer, zero-copy reader,
freshness protocol, text parsers) is described by the accompanying
specification.  The definitions below are a shallow embedding of that engine:
the compiled image is a list of bytes, the writer emits the documented
little-endian layout, and the reader decodes it by offset arithmetic.
-/

/-! ### Byte-level primitives -/

/-- Modelled from the spec: reading one byte of the mapped image; out-of-range
reads are irrelevant to well-formed images and default to 0. -/
def byteAt (p : List Nat) (i : Nat) : Nat := p.getD i 0

/-- Modelled from the spec: little-endian read of a k-byte unsigned field. -/
def readLE : Nat → List Nat → Nat → Nat
  | 0, _, _ => 0
  | k + 1, p, i => byteAt p i + 256 * readLE k p (i + 1)

/-- Modelled from the spec: little-endian encoding of a value into k bytes. -/
def leBytes : Nat → Nat → List Nat
  | 0, _ => []
  | k + 1, v => v % 256 :: leBytes k (v / 256)

/-- A borrowed byte slice of the image: n bytes starting at offset i. -/
def byteSlice (p : List Nat) (i n : Nat) : List Nat := (p.drop i).take n

/-- Modelled from the spec: nodes are aligned to 4 bytes. -/
def align4 (n : Nat) : Nat := n + (4 - n % 4) % 4

/-- Zero padding that brings a byte string to a 4-byte boundary. -/
def pad4 (l : List Nat) : List Nat :=
  l ++ List.replicate ((4 - l.length % 4) % 4) 0

/-! ### The abstract tree (input to Writer, output of parsers)

Modelled from the spec: a node is exactly one of seven variants; strings and
object keys are UTF-8 byte sequences, Int is signed 64-bit, Float is an
IEEE-754 binary64 value carried as its 64-bit pattern (the writer and reader
preserve the bit pattern exactly). -/

inductive Node where
  | null
  | bool (b : Bool)
  | int (i : Int)
  | float (bits : Nat)
  | str (s : List Nat)
  | arr (xs : List Node)
  | obj (kvs : List (List Nat × Node))

/-- Lexicographic byte-order comparison (non-strict) on byte strings. -/
def byteLe : List Nat → List Nat → Bool
  | [], _ => true
  | _ :: _, [] => false
  | a :: as, b :: bs => a < b || (a == b && byteLe as bs)

/-- Key order on object entries: compare the key bytes lexicographically. -/
def keyLe (u v : List Nat × Node) : Prop := byteLe u.1 v.1 = true

instance : DecidableRel keyLe := fun u v => by
  unfold keyLe; infer_instance

/-- Modelled from the spec: at write time, keys within an object are sorted
lexicographically by byte order. -/
def sortKvs (kvs : List (List Nat × Node)) : List (List Nat × Node) :=
  List.insertionSort keyLe kvs

mutual
/-- Modelled from the spec: the well-formedness the parsers guarantee for the
abstract tree in format version 1: Int fits in signed 64-bit and the Float
pattern fits in 64 bits. -/
def wfB : Node → Bool
  | .int i => decide (-(2 ^ 63) ≤ i) && decide (i < 2 ^ 63)
  | .float bits => decide (bits < 2 ^ 64)
  | .arr xs => wfBL xs
  | .obj kvs => wfBKV kvs
  | _ => true
def wfBL : List Node → Bool
  | [] => true
  | x :: xs => wfB x && wfBL xs
def wfBKV : List (List Nat × Node) → Bool
  | [] => true
  | kv :: kvs => wfB kv.2 && wfBKV kvs
end

/-! ### Writer, sizing pass

Modelled from the spec: walk the tree bottom-up assigning each node its size
(every node 4-byte aligned).  Scalars: Null 1 byte, Bool 2, Int 9, Float 9,
String 5+n; Array header 5+4n; Object header 5+8n; children follow the
header, keys stored as string nodes before their values. -/

/-- Size of a string node: tag + 4-byte length + bytes, aligned. -/
def strSize (s : List Nat) : Nat := align4 (5 + s.length)

mutual
/-- Modelled from the spec: the sizing pass of the Writer: the aligned byte
size of each node. -/
def nodeSize : Node → Nat
  | .null => 4
  | .bool _ => 4
  | .int _ => 12
  | .float _ => 12
  | .str s => strSize s
  | .arr xs => align4 (5 + 4 * xs.length) + sizeL xs
  | .obj kvs => align4 (5 + 8 * kvs.length) + sizeKV kvs
def sizeL : List Node → Nat
  | [] => 0
  | x :: xs => nodeSize x + sizeL xs
def sizeKV : List (List Nat × Node) → Nat
  | [] => 0
  | kv :: kvs => strSize kv.1 + nodeSize kv.2 + sizeKV kvs
end

/-- Payload-relative offsets of consecutive array elements. -/
def offsL (base : Nat) : List Node → List Nat
  | [] => []
  | x :: xs => base :: offsL (base + nodeSize x) xs

/-- Payload-relative (key-offset, value-offset) pairs of object entries. -/
def offsKV (base : Nat) : List (List Nat × Node) → List (Nat × Nat)
  | [] => []
  | kv :: kvs =>
    (base, base + strSize kv.1) :: offsKV (base + strSize kv.1 + nodeSize kv.2) kvs

/-! ### Writer, emit pass -/

/-- Encoding of a signed 64-bit integer into its unsigned 64-bit form. -/
def intToU64 (i : Int) : Nat := (i % ((2 : Int) ^ 64)).toNat

/-- Bytes of a string node: tag 4, little-endian length, raw bytes, padding. -/
def strNodeBytes (s : List Nat) : List Nat :=
  pad4 (4 :: (leBytes 4 s.length ++ s))

/-- Array offset table: N little-endian 4-byte element offsets. -/
def tableL (base : Nat) (xs : List Node) : List Nat :=
  (offsL base xs).flatMap (leBytes 4)

/-- Object offset table: N (key-offset, value-offset) little-endian pairs. -/
def tableKV (base : Nat) (kvs : List (List Nat × Node)) : List Nat :=
  (offsKV base kvs).flatMap (fun ab => leBytes 4 ab.1 ++ leBytes 4 ab.2)

mutual
/-- Modelled from the spec: the emit pass of the Writer.  emit off n is the
byte string of node n laid out at payload offset off; stored offsets are
payload-relative, children are written after the offset table. -/
def emit : Nat → Node → List Nat
  | _, .null => pad4 [0]
  | _, .bool b => pad4 [1, if b then 1 else 0]
  | _, .int i => pad4 (2 :: leBytes 8 (intToU64 i))
  | _, .float bits => pad4 (3 :: leBytes 8 bits)
  | _, .str s => strNodeBytes s
  | off, .arr xs =>
    pad4 (5 :: (leBytes 4 xs.length ++ tableL (off + align4 (5 + 4 * xs.length)) xs))
      ++ emitL (off + align4 (5 + 4 * xs.length)) xs
  | off, .obj kvs =>
    pad4 (6 :: (leBytes 4 kvs.length ++ tableKV (off + align4 (5 + 8 * kvs.length)) kvs))
      ++ emitKV (off + align4 (5 + 8 * kvs.length)) kvs
def emitL : Nat → List Node → List Nat
  | _, [] => []
  | off, x :: xs => emit off x ++ emitL (off + nodeSize x) xs
def emitKV : Nat → List (List Nat × Node) → List Nat
  | _, [] => []
  | off, kv :: kvs =>
    strNodeBytes kv.1 ++ emit (off + strSize kv.1) kv.2
      ++ emitKV (off + strSize kv.1 + nodeSize kv.2) kvs
end

mutual
/-- Modelled from the spec: key normalization performed at write time; every
object in the image stores its entries sorted by key byte order.  canon is
the identity up to that reordering. -/
def canon : Node → Node
  | .arr xs => .arr (canonL xs)
  | .obj kvs => .obj (sortKvs (canonKV kvs))
  | n => n
def canonL : List Node → List Node
  | [] => []
  | x :: xs => canon x :: canonL xs
def canonKV : List (List Nat × Node) → List (List Nat × Node)
  | [] => []
  | kv :: kvs => (kv.1, canon kv.2) :: canonKV kvs
end

/-! ### Reader -/

/-- Decoding of the unsigned 64-bit form back into the signed integer. -/
def decodeI64 (v : Nat) : Int :=
  if v < 2 ^ 63 then (v : Int) else (v : Int) - 2 ^ 64

/-- Dereference a key offset: the borrowed bytes of the string node there. -/
def decodeKey (p : List Nat) (koff : Nat) : Option (List Nat) :=
  if byteAt p koff = 4 then some (byteSlice p (koff + 5) (readLE 4 p (koff + 1)))
  else none

/-- Walk an array offset table of c entries, decoding each element with the
supplied node decoder. -/
def decodeElems (dec : List Nat → Nat → Option Node) (p : List Nat) :
    Nat → Nat → Option (List Node)
  | _, 0 => some []
  | tab, c + 1 =>
    match dec p (readLE 4 p tab), decodeElems dec p (tab + 4) c with
    | some x, some xs => some (x :: xs)
    | _, _ => none

/-- Walk an object offset table of c (key-offset, value-offset) pairs,
dereferencing keys and decoding values with the supplied node decoder. -/
def decodePairs (dec : List Nat → Nat → Option Node) (p : List Nat) :
    Nat → Nat → Option (List (List Nat × Node))
  | _, 0 => some []
  | tab, c + 1 =>
    match decodeKey p (readLE 4 p tab), dec p (readLE 4 p (tab + 4)),
        decodePairs dec p (tab + 8) c with
    | some k, some v, some kvs => some ((k, v) :: kvs)
    | _, _, _ => none

/-- Modelled from the spec: the Reader materialization walking the mapped
bytes: dispatch on the 1-byte tag, then read the variant data.  The fuel
argument bounds recursion depth; it is instantiated with the payload length,
which the round-trip proof shows is always sufficient for images produced by
the Writer. -/
def decode : Nat → List Nat → Nat → Option Node
  | 0, _, _ => none
  | f + 1, p, off =>
    match byteAt p off with
    | 0 => some .null
    | 1 => some (.bool (byteAt p (off + 1) == 1))
    | 2 => some (.int (decodeI64 (readLE 8 p (off + 1))))
    | 3 => some (.float (readLE 8 p (off + 1)))
    | 4 => some (.str (byteSlice p (off + 5) (readLE 4 p (off + 1))))
    | 5 => (decodeElems (decode f) p (off + 5) (readLE 4 p (off + 1))).map Node.arr
    | 6 => (decodePairs (decode f) p (off + 5) (readLE 4 p (off + 1))).map Node.obj
    | _ => none

/-- Modelled from the spec: the keys() iterator of a Reader positioned on an
Object node: walk the key-offset table in stored order, yielding the borrowed
key bytes. -/
def keysFrom (p : List Nat) : Nat → Nat → Option (List (List Nat))
  | _, 0 => some []
  | tab, c + 1 =>
    match decodeKey p (readLE 4 p tab), keysFrom p (tab + 8) c with
    | some k, some ks => some (k :: ks)
    | _, _ => none

/-- The keys() operation: only valid on an Object node. -/
def readerKeys (p : List Nat) (off : Nat) : Option (List (List Nat)) :=
  if byteAt p off = 6 then keysFrom p (off + 5) (readLE 4 p (off + 1)) else none

/-! ### Image and top-level write/read -/

/-- Modelled from the spec: the compiled image: header fields (magic,
version, source size, source mtime in nanoseconds, root offset) plus the
payload bytes. -/
structure Image where
  magic : List Nat
  version : Nat
  srcSize : Nat
  srcMtime : Nat
  rootOff : Nat
  payload : List Nat

/-- The four ASCII magic bytes of the format. -/
def magicBytes : List Nat := [83, 78, 65, 80]

/-- Modelled from the spec: the Writer.  Sorts object keys, lays the root
node out at payload offset 0, and records the observed source metadata in
the header. -/
def writeImage (srcSize srcMtime : Nat) (t : Node) : Image :=
  { magic := magicBytes, version := 1, srcSize := srcSize, srcMtime := srcMtime
    rootOff := 0, payload := emit 0 (canon t) }

/-- Modelled from the spec: Reader.to_native on a mapped image: materialize
the subtree at the root offset. -/
def to_native (img : Image) : Option Node :=
  decode (img.payload.length + 1) img.payload img.rootOff

/-! ### Reader navigation (§4.5), modelled at the node level

The byte-level correspondence between a mapped image and its abstract tree is
established by the round-trip theorem below; navigation semantics are stated
on the decoded node exactly as the spec describes them. -/

/-- Modelled from the spec: the error taxonomy kinds reached by Reader
navigation. -/
inductive RdErr where
  | keyMissing
  | indexOutOfRange
  | typeMismatch
  | pathTypeMismatch
  deriving DecidableEq

/-- True on the five scalar variants (everything but Array and Object). -/
def scalarNode : Node → Bool
  | .arr _ => false
  | .obj _ => false
  | _ => true

/-- Modelled from the spec: binary search by byte comparison on the
key-offset table: probe the middle entry, compare key bytes, narrow the
range.  The fuel argument dominates the range width. -/
def bsearch (kvs : List (List Nat × Node)) (k : List Nat) : Nat → Nat → Nat → Option Node
  | 0, _, _ => none
  | fu + 1, lo, hi =>
    if lo < hi then
      if k = (kvs.getD ((lo + hi) / 2) ([], .null)).1 then
        some (kvs.getD ((lo + hi) / 2) ([], .null)).2
      else if byteLe (kvs.getD ((lo + hi) / 2) ([], .null)).1 k then
        bsearch kvs k fu ((lo + hi) / 2 + 1) hi
      else bsearch kvs k fu lo ((lo + hi) / 2)
    else none

/-- Object key lookup over the whole table. -/
def objKey (kvs : List (List Nat × Node)) (k : List Nat) : Option Node :=
  bsearch kvs k (kvs.length + 1) 0 kvs.length

/-- Modelled from the spec: key(k) on Object: binary search by byte order;
a key not present fails with KeyMissing. -/
def rdKey : Node → List Nat → Except RdErr Node
  | .obj kvs, k =>
    match objKey kvs k with
    | some v => .ok v
    | none => .error .keyMissing
  | _, _ => .error .typeMismatch

/-- Modelled from the spec: index(i) on Array: bounds-checked element access;
an index outside [0, len) fails with IndexOutOfRange. -/
def rdIndex : Node → Int → Except RdErr Node
  | .arr xs, i =>
    if 0 ≤ i ∧ i < (xs.length : Int) then .ok (xs.getD i.toNat .null)
    else .error .indexOutOfRange
  | _, _ => .error .typeMismatch

/-- ASCII decimal digit test on a byte. -/
def isDigit (b : Nat) : Bool := 48 ≤ b && b ≤ 57

/-- Value of a string of decimal digit bytes. -/
def digitsVal (s : List Nat) : Nat := s.foldl (fun a b => a * 10 + (b - 48)) 0

/-- Modelled from the spec: a dotted-path segment used on an Array must parse
as a non-negative integer. -/
def parseNatBytes (s : List Nat) : Option Nat :=
  if s ≠ [] ∧ s.all isDigit then some (digitsVal s) else none

/-- Modelled from the spec: dotted-path traversal: Object segment is a key,
Array segment must be numeric, anything else is PathTypeMismatch. -/
def getPath : Node → List (List Nat) → Except RdErr Node
  | n, [] => .ok n
  | .obj kvs, seg :: rest =>
    (match objKey kvs seg with
     | some v => getPath v rest
     | none => .error .keyMissing)
  | .arr xs, seg :: rest =>
    (match parseNatBytes seg with
     | some i =>
       if i < xs.length then getPath (xs.getD i .null) rest
       else .error .indexOutOfRange
     | none => .error .pathTypeMismatch)
  | _, _ :: _ => .error .pathTypeMismatch

/-- Split a path on the dot byte (46). -/
def splitDotsGo : List Nat → List Nat → List (List Nat)
  | acc, [] => [acc.reverse]
  | acc, b :: bs =>
    if b = 46 then acc.reverse :: splitDotsGo [] bs else splitDotsGo (b :: acc) bs

/-- Modelled from the spec: the path is split on the dot character. -/
def splitDots (s : List Nat) : List (List Nat) := splitDotsGo [] s

/-- Modelled from the spec: Reader.get(path): split on dots and traverse. -/
def get (n : Node) (path : List Nat) : Except RdErr Node := getPath n (splitDots path)

/-! ### Text parsers: INI and dotenv scalar coercion -/

/-- ASCII bytes of a string literal, for stating concrete scenarios. -/
def asciiBytes (s : String) : List Nat := s.data.map Char.toNat

/-- Host-language value produced by the INI/dotenv scalar coercion.  The
Float payload is carried as its decimal source text: the engine converts it
to IEEE-754 binary64 at the host boundary, which the byte-level embedding
does not model. -/
inductive EnvValue where
  | null
  | bool (b : Bool)
  | int (i : Int)
  | float (text : List Nat)
  | str (s : List Nat)
  deriving DecidableEq

/-- Lower-case an ASCII byte. -/
def lowerByte (b : Nat) : Nat := if 65 ≤ b ∧ b ≤ 90 then b + 32 else b

/-- Lower-case an ASCII byte string. -/
def lowerBytes (s : List Nat) : List Nat := s.map lowerByte

/-- Strip one matching pair of surrounding double or single quotes. -/
def stripQuotes (s : List Nat) : List Nat :=
  match s with
  | 34 :: rest => if rest ≠ [] ∧ rest.getLast? = some 34 then rest.dropLast else s
  | 39 :: rest => if rest ≠ [] ∧ rest.getLast? = some 39 then rest.dropLast else s
  | _ => s

/-- Modelled from the spec: a pure decimal integer, optionally signed. -/
def parseDec (s : List Nat) : Option Int :=
  match s with
  | [] => none
  | b :: rest =>
    if b = 45 then
      (if rest ≠ [] ∧ rest.all isDigit then some (-(digitsVal rest : Int)) else none)
    else (if (b :: rest).all isDigit then some ((digitsVal (b :: rest) : Int)) else none)

/-- One-or-more digits; returns what follows them. -/
def digitsThen (s : List Nat) : Option (List Nat) :=
  match s with
  | b :: bs => if isDigit b then some (bs.dropWhile isDigit) else none
  | [] => none

/-- Unsigned non-integer decimal numeric text: digits, one dot, digits. -/
def isUFloat (s : List Nat) : Bool :=
  match digitsThen s with
  | some (46 :: rest) => rest ≠ [] && rest.all isDigit
  | _ => false

/-- Non-integer decimal numeric text, optionally signed. -/
def isFloatText (s : List Nat) : Bool :=
  match s with
  | [] => false
  | b :: rest => if b = 45 then isUFloat rest else isUFloat (b :: rest)

/-- Modelled from the spec: INI scalar coercion: empty value to empty
String; nil/null/None in any case to Null; true/false in any case to Bool;
pure decimal integer to Int; otherwise String with surrounding quotes
stripped if present. -/
def ini_coerce (v : List Nat) : EnvValue :=
  if v = [] then .str []
  else if lowerBytes v = asciiBytes ("nil") ∨ lowerBytes v = asciiBytes ("null")
      ∨ lowerBytes v = asciiBytes ("none") then .null
  else if lowerBytes v = asciiBytes ("true") then .bool true
  else if lowerBytes v = asciiBytes ("false") then .bool false
  else
    match parseDec v with
    | some i => .int i
    | none => .str (stripQuotes v)

/-- Modelled from the spec: dotenv scalar coercion, stated as identical to
the INI coercion; the repository test suite (TestEnv.test_env_types expects
TIMEOUT=30.5 to load as the float 30.5) additionally fixes that non-integer
decimal numeric text coerces to Float rather than String. -/
def env_coerce (v : List Nat) : EnvValue :=
  if v = [] then .str []
  else if lowerBytes v = asciiBytes ("nil") ∨ lowerBytes v = asciiBytes ("null")
      ∨ lowerBytes v = asciiBytes ("none") then .null
  else if lowerBytes v = asciiBytes ("true") then .bool true
  else if lowerBytes v = asciiBytes ("false") then .bool false
  else
    match parseDec v with
    | some i => .int i
    | none => if isFloatText v then .float v else .str (stripQuotes v)

/-! ### dotenv file parsing and process-environment export -/

/-- ASCII whitespace trimmed around keys and values. -/
def isSpace (b : Nat) : Bool := b = 32 || b = 9 || b = 13

/-- Trim whitespace bytes from both ends. -/
def trimBytes (s : List Nat) : List Nat :=
  ((s.dropWhile isSpace).reverse.dropWhile isSpace).reverse

/-- Split a byte string at the first equals sign (61), if any. -/
def splitAtEq : List Nat → Option (List Nat × List Nat)
  | [] => none
  | b :: bs =>
    if b = 61 then some ([], bs)
    else
      match splitAtEq bs with
      | some kv => some (b :: kv.1, kv.2)
      | none => none

/-- Modelled from the spec: an optional leading export token is stripped. -/
def dropExport (s : List Nat) : List Nat :=
  if s.take 7 = asciiBytes ("export ") then s.drop 7 else s

/-- Modelled from the spec: a hash byte (35) starts a line comment unless
quoted: scan the line tracking the quote state (0 outside quotes, else the
opening quote byte) and drop everything from the first unquoted hash on. -/
def stripComment : List Nat → Nat → List Nat
  | [], _ => []
  | b :: bs, q =>
    if q = 0 then
      if b = 35 then []
      else if b = 34 then b :: stripComment bs 34
      else if b = 39 then b :: stripComment bs 39
      else b :: stripComment bs 0
    else if b = q then b :: stripComment bs 0
    else b :: stripComment bs q

/-- Modelled from the spec: one dotenv line: the unquoted part from the
first hash byte on is a comment; a blank or fully commented line yields
nothing; otherwise KEY=VALUE with whitespace around the equals sign trimmed
and the value coerced. -/
def parseLine (line : List Nat) : Option (List Nat × EnvValue) :=
  let l := trimBytes (stripComment line 0)
  if l = [] then none
  else
    match splitAtEq (dropExport l) with
    | some kv =>
      let k := trimBytes kv.1
      if k = [] then none else some (k, env_coerce (trimBytes kv.2))
    | none => none

/-- Modelled from the spec: parse_env(text): one key per line; the result is
a flat association of keys to coerced values. -/
def parse_env (text : List Nat) : List (List Nat × EnvValue) :=
  (text.splitOn 10).filterMap parseLine

/-- Decimal digits of a natural number (fuel-driven). -/
def natToDecGo : Nat → Nat → List Nat
  | 0, _ => []
  | f + 1, n => if n < 10 then [48 + n] else natToDecGo f (n / 10) ++ [48 + n % 10]

/-- Decimal byte string of a natural number. -/
def natToDec (n : Nat) : List Nat := natToDecGo (n + 1) n

/-- Modelled from the spec: the textual form under which a coerced value is
written into the process environment: booleans are exported lowercase, ints
in decimal, floats as their source text, strings as themselves.  The spec
does not pin the Null rendering; it is taken as the empty string. -/
def envString : EnvValue → List Nat
  | .null => []
  | .bool b => if b then asciiBytes ("true") else asciiBytes ("false")
  | .int i => if i < 0 then 45 :: natToDec (-i).toNat else natToDec i.toNat
  | .float t => t
  | .str s => s

/-- The process environment, modelled as an association of byte strings. -/
abbrev EnvMap : Type := List (List Nat × List Nat)

/-- Lookup of a process-environment variable. -/
def envGet (e : EnvMap) (k : List Nat) : Option (List Nat) :=
  match e with
  | [] => none
  | kv :: rest => if kv.1 = k then some kv.2 else envGet rest k

/-- Set a process-environment variable, replacing an existing binding. -/
def envSet (e : EnvMap) (k v : List Nat) : EnvMap :=
  match e with
  | [] => [(k, v)]
  | kv :: rest => if kv.1 = k then (k, v) :: rest else kv :: envSet rest k v

/-- One dotenv variable applied to the environment: written unless the
variable exists and override_existing is false; the count tracks the number
of variables written. -/
def dotenvStep (ov : Bool) (acc : Nat × EnvMap) (kv : List Nat × EnvValue) :
    Nat × EnvMap :=
  if ov || (envGet acc.2 kv.1).isNone
  then (acc.1 + 1, envSet acc.2 kv.1 (envString kv.2))
  else acc

/-- Modelled from the spec: load_dotenv(path, override_existing): parse the
file and write each variable into the process environment, returning the
number of variables written. -/
def load_dotenv (text : List Nat) (ov : Bool) (env : EnvMap) : Nat × EnvMap :=
  (parse_env text).foldl (dotenvStep ov) (0, env)

/-- The last value the file assigns to a key (later lines win). -/
def lastVal (l : List (List Nat × EnvValue)) (k : List Nat) : Option EnvValue :=
  (l.reverse.find? (fun kv => kv.1 = k)).map (fun kv => kv.2)

/-! ### Freshness oracle, Loader, cache operations -/

/-- A source file on disk: its bytes and its mtime in nanoseconds. -/
structure SourceFile where
  bytes : List Nat
  mtimeNs : Nat

/-- Modelled from the spec: the freshness oracle: the image is fresh iff it
exists, magic and version match the current build, and the recorded source
size and nanosecond mtime equal those of the source. -/
def cacheFresh (src : SourceFile) (img : Option Image) : Bool :=
  match img with
  | none => false
  | some im =>
    im.magic = magicBytes ∧ im.version = 1
      ∧ im.srcSize = src.bytes.length ∧ im.srcMtime = src.mtimeNs

/-- Compile a source file to an image via the given text parser. -/
def compileImage (parse : List Nat → Node) (src : SourceFile) : Image :=
  writeImage src.bytes.length src.mtimeNs (parse src.bytes)

/-- Modelled from the spec: the Loader: if force_recompile is set or the
image is not fresh, parse and write a new image; otherwise reuse the
existing image unchanged.  Returns the resulting image file state and
whether a write was performed. -/
def load (parse : List Nat → Node) (src : SourceFile) (img : Option Image)
    (force : Bool) : Option Image × Bool :=
  if force || !cacheFresh src img then (some (compileImage parse src), true)
  else (img, false)

/-- The record returned by cache_info. -/
structure CacheInfo where
  source_exists : Bool
  cache_exists : Bool
  cache_fresh : Bool
  cache_size : Nat

/-- Modelled from the spec: cache_info(path): source-exists, image-exists,
image-fresh, image-size (header plus payload). -/
def cache_info (src : Option SourceFile) (img : Option Image) : CacheInfo :=
  { source_exists := src.isSome
    cache_exists := img.isSome
    cache_fresh :=
      match src with
      | some s => cacheFresh s img
      | none => false
    cache_size :=
      match img with
      | some im => 32 + im.payload.length
      | none => 0 }

/-- Modelled from the spec: clear_cache(path): unlinks the image if present
and returns whether a file was removed. -/
def clear_cache (img : Option Image) : Bool × Option Image := (img.isSome, none)

/-- A small document used to instantiate theorems with hypotheses. -/
def demoTree : Node :=
  .obj [(asciiBytes ("b"), .int 1), (asciiBytes ("a"), .str (asciiBytes ("hi"))),
    (asciiBytes ("c"), .arr [.null, .bool true, .float 77])]

/-- The array-rooted document of scenario S4. -/
def arrDoc : Node :=
  .arr [.obj [(asciiBytes ("id"), .int 1)], .obj [(asciiBytes ("id"), .int 2)]]

/-- Correct decoding of a node placed at a given offset of a larger payload:
for sufficient fuel, a well-formed node whose placement fits the 32-bit
offset space of format version 1 reads back exactly. -/
def DecOK (n : Node) : Prop :=
  ∀ f pre post, nodeSize n ≤ f → wfB n = true → pre.length + nodeSize n ≤ 2 ^ 32 →
    decode f (pre ++ (emit pre.length n ++ post)) pre.length = some n

/-! ## Byte-primitive lemmas -/

theorem leBytes_length (k v : Nat) : (leBytes k v).length = k := by
  induction k generalizing v with
  | zero => simp [leBytes]
  | succ k ih => simp [leBytes, ih]

theorem byteAt_append_right (a b : List Nat) (i : Nat) :
    byteAt (a ++ b) (a.length + i) = byteAt b i := by
  unfold byteAt
  rw [List.getD_append_right a b 0 _ (Nat.le_add_right _ _)]
  congr 1
  omega

theorem byteAt_append_left (a b : List Nat) (i : Nat) (h : i < a.length) :
    byteAt (a ++ b) i = byteAt a i := by
  unfold byteAt
  exact List.getD_append a b 0 i h

theorem readLE_shift (k : Nat) (a b : List Nat) (i : Nat) :
    readLE k (a ++ b) (a.length + i) = readLE k b i := by
  induction k generalizing i with
  | zero => rfl
  | succ k ih =>
    rw [readLE, readLE, byteAt_append_right]
    have h : a.length + i + 1 = a.length + (i + 1) := by omega
    rw [h, ih]

theorem readLE_leBytes (k v : Nat) (rest : List Nat) (h : v < 256 ^ k) :
    readLE k (leBytes k v ++ rest) 0 = v := by
  induction k generalizing v rest with
  | zero =>
    have : v = 0 := by simpa using h
    simp [this, readLE]
  | succ k ih =>
    have hv : v / 256 < 256 ^ k := by
      rw [Nat.div_lt_iff_lt_mul (by omega : 0 < 256)]
      rw [pow_succ] at h
      exact h
    rw [leBytes]
    rw [readLE]
    have h0 : byteAt ((v % 256 :: leBytes k (v / 256)) ++ rest) 0 = v % 256 := rfl
    have h1 : readLE k ((v % 256 :: leBytes k (v / 256)) ++ rest) 1
        = readLE k (leBytes k (v / 256) ++ rest) 0 := by
      have h2 := readLE_shift k [v % 256] (leBytes k (v / 256) ++ rest) 0
      simpa using h2
    rw [h0, h1, ih _ _ hv]
    exact Nat.mod_add_div v 256

theorem readLE_at (k v : Nat) (pre rest : List Nat) (h : v < 256 ^ k) :
    readLE k (pre ++ (leBytes k v ++ rest)) pre.length = v := by
  have h1 := readLE_shift k pre (leBytes k v ++ rest) 0
  rw [Nat.add_zero] at h1
  rw [h1, readLE_leBytes k v rest h]

theorem byteSlice_shift (a b : List Nat) (i n : Nat) :
    byteSlice (a ++ b) (a.length + i) n = byteSlice b i n := by
  simp [byteSlice, List.drop_append]

theorem byteSlice_exact (s rest : List Nat) : byteSlice (s ++ rest) 0 s.length = s := by
  simp [byteSlice, List.take_left]

theorem pad4_length (l : List Nat) : (pad4 l).length = align4 l.length := by
  simp [pad4, align4]

theorem le_align4 (n : Nat) : n ≤ align4 n := by
  simp [align4]

theorem align4_le (n : Nat) : align4 n ≤ n + 3 := by
  unfold align4
  omega

theorem intToU64_lt (i : Int) : intToU64 i < 2 ^ 64 := by
  unfold intToU64
  have h1 : 0 ≤ i % ((2 : Int) ^ 64) := Int.emod_nonneg i (by norm_num)
  have h2 : i % ((2 : Int) ^ 64) < 2 ^ 64 := Int.emod_lt_of_pos i (by norm_num)
  omega

theorem decodeI64_intToU64 (i : Int) (h1 : -(2 ^ 63) ≤ i) (h2 : i < 2 ^ 63) :
    decodeI64 (intToU64 i) = i := by
  unfold decodeI64 intToU64
  rcases le_or_lt 0 i with hpos | hneg
  · have hmod : i % ((2 : Int) ^ 64) = i := Int.emod_eq_of_lt hpos (by omega)
    rw [hmod]
    split <;> omega
  · have hmod : i % ((2 : Int) ^ 64) = i + 2 ^ 64 := by
      have hlt : i + 2 ^ 64 < 2 ^ 64 := by omega
      have hge : (0 : Int) ≤ i + 2 ^ 64 := by omega
      have hself := Int.add_mul_emod_self_left (a := i) (b := (2 : Int) ^ 64) (c := 1)
      rw [mul_one] at hself
      rw [← hself, Int.emod_eq_of_lt hge hlt]
    rw [hmod]
    split <;> omega

/-! ## A nested induction principle for the abstract tree -/

theorem sizeOf_mem_lt_arr {x : Node} {xs : List Node} (h : x ∈ xs) :
    sizeOf x < sizeOf (Node.arr xs) := by
  have h1 := List.sizeOf_lt_of_mem h
  simp only [Node.arr.sizeOf_spec]
  omega

theorem sizeOf_mem_lt_obj {kv : List Nat × Node} {kvs : List (List Nat × Node)}
    (h : kv ∈ kvs) : sizeOf kv.2 < sizeOf (Node.obj kvs) := by
  have h1 := List.sizeOf_lt_of_mem h
  obtain ⟨a, b⟩ := kv
  simp only [Node.obj.sizeOf_spec]
  simp only [Prod.mk.sizeOf_spec] at h1
  omega

theorem Node.myInduction {P : Node → Prop} (hnull : P .null) (hbool : ∀ b, P (.bool b))
    (hint : ∀ i, P (.int i)) (hfloat : ∀ b, P (.float b)) (hstr : ∀ s, P (.str s))
    (harr : ∀ xs, (∀ x ∈ xs, P x) → P (.arr xs))
    (hobj : ∀ kvs, (∀ kv ∈ kvs, P kv.2) → P (.obj kvs)) : ∀ n, P n := by
  have key : ∀ m n, sizeOf n ≤ m → P n := by
    intro m
    induction m with
    | zero =>
      intro n h
      exfalso
      cases n <;> simp_arith at h
    | succ m ih =>
      intro n h
      cases n with
      | null => exact hnull
      | bool b => exact hbool b
      | int i => exact hint i
      | float b => exact hfloat b
      | str s => exact hstr s
      | arr xs =>
        refine harr xs fun x hx => ih x ?_
        have h1 := sizeOf_mem_lt_arr hx
        omega
      | obj kvs =>
        refine hobj kvs fun kv hkv => ih kv.2 ?_
        have h1 := sizeOf_mem_lt_obj hkv
        omega
  exact fun n => key (sizeOf n) n (Nat.le_refl _)

/-! ## Emitted byte lengths match the sizing pass -/

theorem offsL_length (base : Nat) (xs : List Node) :
    (offsL base xs).length = xs.length := by
  induction xs generalizing base with
  | nil => simp [offsL]
  | cons x rest ih => simp [offsL, ih]

theorem offsKV_length (base : Nat) (kvs : List (List Nat × Node)) :
    (offsKV base kvs).length = kvs.length := by
  induction kvs generalizing base with
  | nil => simp [offsKV]
  | cons kv rest ih => simp [offsKV, ih]

theorem tableL_length (base : Nat) (xs : List Node) :
    (tableL base xs).length = 4 * xs.length := by
  unfold tableL
  rw [← offsL_length base xs]
  generalize offsL base xs = l
  induction l with
  | nil => simp
  | cons o rest ih => simp [leBytes_length, ih]; omega

theorem tableKV_length (base : Nat) (kvs : List (List Nat × Node)) :
    (tableKV base kvs).length = 8 * kvs.length := by
  unfold tableKV
  rw [← offsKV_length base kvs]
  generalize offsKV base kvs = l
  induction l with
  | nil => simp
  | cons ab rest ih => simp [leBytes_length, ih]; omega

theorem strNodeBytes_length (s : List Nat) : (strNodeBytes s).length = strSize s := by
  simp only [strNodeBytes, pad4_length, strSize, List.length_cons, List.length_append,
    leBytes_length]
  congr 1
  omega

theorem nodeSize_pos (n : Node) : 4 ≤ nodeSize n := by
  cases n with
  | null => simp [nodeSize]
  | bool b => simp [nodeSize]
  | int i => simp [nodeSize]
  | float b => simp [nodeSize]
  | str s =>
    simp only [nodeSize, strSize]
    have h := le_align4 (5 + s.length)
    omega
  | arr xs =>
    simp only [nodeSize]
    have h := le_align4 (5 + 4 * xs.length)
    omega
  | obj kvs =>
    simp only [nodeSize]
    have h := le_align4 (5 + 8 * kvs.length)
    omega

theorem emitL_length_of (xs : List Node)
    (IH : ∀ x ∈ xs, ∀ off, (emit off x).length = nodeSize x) :
    ∀ off, (emitL off xs).length = sizeL xs := by
  induction xs with
  | nil => intro off; simp [emitL, sizeL]
  | cons x rest ih =>
    intro off
    simp only [emitL, sizeL, List.length_append]
    rw [IH x (by simp), ih (fun y hy => IH y (by simp [hy]))]

theorem emitKV_length_of (kvs : List (List Nat × Node))
    (IH : ∀ kv ∈ kvs, ∀ off, (emit off kv.2).length = nodeSize kv.2) :
    ∀ off, (emitKV off kvs).length = sizeKV kvs := by
  induction kvs with
  | nil => intro off; simp [emitKV, sizeKV]
  | cons kv rest ih =>
    intro off
    simp only [emitKV, sizeKV, List.length_append]
    rw [strNodeBytes_length, IH kv (by simp), ih (fun y hy => IH y (by simp [hy]))]
    try omega

theorem emit_length (n : Node) : ∀ off, (emit off n).length = nodeSize n := by
  induction n using Node.myInduction with
  | hnull => intro off; simp [emit, nodeSize, pad4_length]; decide
  | hbool => intro off; simp [emit, nodeSize, pad4_length]; decide
  | hint => intro off; simp [emit, nodeSize, pad4_length, leBytes_length]; decide
  | hfloat => intro off; simp [emit, nodeSize, pad4_length, leBytes_length]; decide
  | hstr => intro off; simp [emit, nodeSize, strNodeBytes_length]
  | harr xs IH =>
    intro off
    simp only [emit, nodeSize, List.length_append, pad4_length, List.length_cons,
      tableL_length, leBytes_length]
    rw [emitL_length_of xs IH]
    congr 2
    omega
  | hobj kvs IH =>
    intro off
    simp only [emit, nodeSize, List.length_append, pad4_length, List.length_cons,
      tableKV_length, leBytes_length]
    rw [emitKV_length_of kvs IH]
    congr 2
    omega

/-! ## Reading offset tables and headers out of a placed node -/

theorem tag_read (pre : List Nat) (t : Nat) (rest : List Nat) :
    byteAt (pre ++ t :: rest) pre.length = t := by
  have h := byteAt_append_right pre (t :: rest) 0
  simpa using h

theorem byte1_read (pre : List Nat) (t b : Nat) (rest : List Nat) :
    byteAt (pre ++ t :: b :: rest) (pre.length + 1) = b := by
  have h := byteAt_append_right pre (t :: b :: rest) 1
  simpa using h

theorem field_read (pre : List Nat) (t k v : Nat) (rest : List Nat) (h : v < 256 ^ k) :
    readLE k (pre ++ t :: (leBytes k v ++ rest)) (pre.length + 1) = v := by
  have h1 : pre ++ t :: (leBytes k v ++ rest) = (pre ++ [t]) ++ (leBytes k v ++ rest) := by
    simp
  have h2 : pre.length + 1 = (pre ++ [t]).length := by simp
  rw [h1, h2]
  exact readLE_at k v (pre ++ [t]) rest h

theorem payload_read (pre : List Nat) (t v : Nat) (s rest : List Nat) (n : Nat) :
    byteSlice (pre ++ t :: (leBytes 4 v ++ (s ++ rest))) (pre.length + 5) n
      = byteSlice (s ++ rest) 0 n := by
  have h1 : pre ++ t :: (leBytes 4 v ++ (s ++ rest))
      = (pre ++ t :: leBytes 4 v) ++ (s ++ rest) := by simp
  have h2 : pre.length + 5 = (pre ++ t :: leBytes 4 v).length + 0 := by
    simp [leBytes_length]
  rw [h1, h2, byteSlice_shift]

theorem table_read (l : List Nat) (hl : ∀ o ∈ l, o < 2 ^ 32) :
    ∀ (pre post : List Nat) (i : Nat), i < l.length →
      readLE 4 (pre ++ (l.flatMap (leBytes 4) ++ post)) (pre.length + 4 * i)
        = l.getD i 0 := by
  induction l with
  | nil => intro pre post i h; simp at h
  | cons o rest ih =>
    intro pre post i h
    cases i with
    | zero =>
      have ho : o < 256 ^ 4 := by
        have := hl o (by simp)
        norm_num
        omega
      have hshape : pre ++ ((o :: rest).flatMap (leBytes 4) ++ post)
          = pre ++ (leBytes 4 o ++ (rest.flatMap (leBytes 4) ++ post)) := by
        simp [List.flatMap_cons]
      rw [hshape, Nat.mul_zero, Nat.add_zero, readLE_at 4 o pre _ ho]
      simp [List.getD]
    | succ j =>
      have hj : j < rest.length := by simpa using h
      have hrec := ih (fun x hx => hl x (by simp [hx])) (pre ++ leBytes 4 o) post j hj
      have hshape : pre ++ ((o :: rest).flatMap (leBytes 4) ++ post)
          = (pre ++ leBytes 4 o) ++ (rest.flatMap (leBytes 4) ++ post) := by
        simp [List.flatMap_cons]
      have hidx : pre.length + 4 * (j + 1) = (pre ++ leBytes 4 o).length + 4 * j := by
        simp [leBytes_length]
        omega
      rw [hshape, hidx, hrec]
      simp [List.getD_cons_succ]

theorem tableKV_read (l : List (Nat × Nat))
    (hl : ∀ ab ∈ l, ab.1 < 2 ^ 32 ∧ ab.2 < 2 ^ 32) :
    ∀ (pre post : List Nat) (i : Nat), i < l.length →
      readLE 4 (pre ++ (l.flatMap (fun ab => leBytes 4 ab.1 ++ leBytes 4 ab.2) ++ post))
          (pre.length + 8 * i) = (l.getD i (0, 0)).1
      ∧ readLE 4 (pre ++ (l.flatMap (fun ab => leBytes 4 ab.1 ++ leBytes 4 ab.2) ++ post))
          (pre.length + 8 * i + 4) = (l.getD i (0, 0)).2 := by
  induction l with
  | nil => intro pre post i h; simp at h
  | cons ab rest ih =>
    intro pre post i h
    have hab := hl ab (by simp)
    have ha : ab.1 < 256 ^ 4 := by norm_num; omega
    have hb : ab.2 < 256 ^ 4 := by norm_num; omega
    cases i with
    | zero =>
      constructor
      · have hshape : pre ++ ((ab :: rest).flatMap (fun ab => leBytes 4 ab.1 ++ leBytes 4 ab.2) ++ post)
            = pre ++ (leBytes 4 ab.1 ++ (leBytes 4 ab.2 ++ (rest.flatMap (fun ab => leBytes 4 ab.1 ++ leBytes 4 ab.2) ++ post))) := by
          simp [List.flatMap_cons]
        rw [hshape, Nat.mul_zero, Nat.add_zero, readLE_at 4 ab.1 pre _ ha]
        simp [List.getD]
      · have hshape : pre ++ ((ab :: rest).flatMap (fun ab => leBytes 4 ab.1 ++ leBytes 4 ab.2) ++ post)
            = (pre ++ leBytes 4 ab.1) ++ (leBytes 4 ab.2 ++ (rest.flatMap (fun ab => leBytes 4 ab.1 ++ leBytes 4 ab.2) ++ post)) := by
          simp [List.flatMap_cons]
        have hidx : pre.length + 8 * 0 + 4 = (pre ++ leBytes 4 ab.1).length := by
          simp [leBytes_length]
        rw [hshape, hidx, readLE_at 4 ab.2 _ _ hb]
        simp [List.getD]
    | succ j =>
      have hj : j < rest.length := by simpa using h
      have hrec := ih (fun x hx => hl x (by simp [hx]))
        (pre ++ (leBytes 4 ab.1 ++ leBytes 4 ab.2)) post j hj
      have hshape : pre ++ ((ab :: rest).flatMap (fun ab => leBytes 4 ab.1 ++ leBytes 4 ab.2) ++ post)
          = (pre ++ (leBytes 4 ab.1 ++ leBytes 4 ab.2))
            ++ (rest.flatMap (fun ab => leBytes 4 ab.1 ++ leBytes 4 ab.2) ++ post) := by
        simp [List.flatMap_cons]
      have hidx1 : pre.length + 8 * (j + 1)
          = (pre ++ (leBytes 4 ab.1 ++ leBytes 4 ab.2)).length + 8 * j := by
        simp [leBytes_length]
        omega
      rw [hshape, hidx1]
      constructor
      · rw [hrec.1]
        simp [List.getD_cons_succ]
      · rw [hrec.2]
        simp [List.getD_cons_succ]

theorem strSize_pos (s : List Nat) : 4 ≤ strSize s := by
  unfold strSize
  have h := le_align4 (5 + s.length)
  omega

theorem offsL_bound (xs : List Node) :
    ∀ base o, o ∈ offsL base xs → base ≤ o ∧ o + 4 ≤ base + sizeL xs := by
  induction xs with
  | nil => intro base o ho; simp [offsL] at ho
  | cons x rest ih =>
    intro base o ho
    have hx := nodeSize_pos x
    simp only [offsL, List.mem_cons] at ho
    rcases ho with rfl | ho
    · simp only [sizeL]
      omega
    · have h := ih (base + nodeSize x) o ho
      simp only [sizeL]
      omega

theorem offsKV_bound (kvs : List (List Nat × Node)) :
    ∀ base ab, ab ∈ offsKV base kvs →
      base ≤ ab.1 ∧ ab.1 + 4 ≤ base + sizeKV kvs ∧ ab.2 + 4 ≤ base + sizeKV kvs := by
  induction kvs with
  | nil => intro base ab hab; simp [offsKV] at hab
  | cons kv rest ih =>
    intro base ab hab
    have hk := strSize_pos kv.1
    have hv := nodeSize_pos kv.2
    simp only [offsKV, List.mem_cons] at hab
    rcases hab with rfl | hab
    · simp only [sizeKV]
      omega
    · have h := ih (base + strSize kv.1 + nodeSize kv.2) ab hab
      simp only [sizeKV]
      omega

theorem decodeKey_at (pre post s : List Nat) (h : s.length < 2 ^ 32) :
    decodeKey (pre ++ (strNodeBytes s ++ post)) pre.length = some s := by
  obtain ⟨padding, hpad⟩ :
      ∃ padding, strNodeBytes s = (4 :: (leBytes 4 s.length ++ s)) ++ padding := ⟨_, rfl⟩
  have hshape : pre ++ (strNodeBytes s ++ post)
      = pre ++ 4 :: (leBytes 4 s.length ++ (s ++ (padding ++ post))) := by
    rw [hpad]
    simp
  have hlen : s.length < 256 ^ 4 := by norm_num; omega
  unfold decodeKey
  rw [hshape, tag_read, field_read pre 4 4 s.length _ hlen, payload_read,
    byteSlice_exact]
  simp

theorem wfBL_iff (xs : List Node) : wfBL xs = true ↔ ∀ x ∈ xs, wfB x = true := by
  induction xs with
  | nil => simp [wfBL]
  | cons x rest ih => simp [wfBL, Bool.and_eq_true, ih]

theorem wfBKV_iff (kvs : List (List Nat × Node)) :
    wfBKV kvs = true ↔ ∀ kv ∈ kvs, wfB kv.2 = true := by
  induction kvs with
  | nil => simp [wfBKV]
  | cons kv rest ih => simp [wfBKV, Bool.and_eq_true, ih]

/-! ## Element and pair tables decode back to the children they index -/

theorem decodeElems_emitL : ∀ (xs : List Node), (∀ x ∈ xs, DecOK x) →
    ∀ (f : Nat) (p preC post : List Nat) (tab : Nat),
      p = preC ++ (emitL preC.length xs ++ post) →
      (∀ i, i < xs.length → readLE 4 p (tab + 4 * i) = (offsL preC.length xs).getD i 0) →
      sizeL xs + 1 ≤ f → wfBL xs = true → preC.length + sizeL xs ≤ 2 ^ 32 →
      decodeElems (decode f) p tab xs.length = some xs := by
  intro xs
  induction xs with
  | nil =>
    intro _ f p preC post tab hp htab hf hwf hcap
    simp [decodeElems]
  | cons x rest ih =>
    intro IH f p preC post tab hp htab hf hwf hcap
    have hwf2 : wfB x = true ∧ wfBL rest = true := by
      simpa [wfBL, Bool.and_eq_true] using hwf
    have hszx := nodeSize_pos x
    have hfx : nodeSize x ≤ f := by
      simp only [sizeL] at hf
      omega
    have hr0 : readLE 4 p tab = preC.length := by
      have h := htab 0 (by simp)
      simpa [offsL] using h
    have hx : decode f p preC.length = some x := by
      have hp2 : p = preC ++ (emit preC.length x
          ++ (emitL (preC.length + nodeSize x) rest ++ post)) := by
        rw [hp]
        simp [emitL]
      rw [hp2]
      exact IH x (by simp) f preC _ hfx hwf2.1 (by simp only [sizeL] at hcap; omega)
    have hlen : (preC ++ emit preC.length x).length = preC.length + nodeSize x := by
      simp [emit_length]
    have hrest : decodeElems (decode f) p (tab + 4) rest.length = some rest := by
      apply ih (fun y hy => IH y (by simp [hy])) f p (preC ++ emit preC.length x) post (tab + 4)
      · rw [hlen, hp]
        simp [emitL]
      · intro i hi
        have h := htab (i + 1) (by simp; omega)
        have hidx : tab + 4 * (i + 1) = tab + 4 + 4 * i := by omega
        rw [hidx] at h
        rw [hlen]
        simpa [offsL] using h
      · simp only [sizeL] at hf
        omega
      · exact hwf2.2
      · rw [hlen]
        simp only [sizeL] at hcap
        omega
    have hc : (x :: rest).length = rest.length + 1 := by simp
    rw [hc]
    simp only [decodeElems, hr0, hx, hrest]

theorem decodePairs_emitKV : ∀ (kvs : List (List Nat × Node)), (∀ kv ∈ kvs, DecOK kv.2) →
    ∀ (f : Nat) (p preC post : List Nat) (tab : Nat),
      p = preC ++ (emitKV preC.length kvs ++ post) →
      (∀ i, i < kvs.length →
        readLE 4 p (tab + 8 * i) = ((offsKV preC.length kvs).getD i (0, 0)).1
        ∧ readLE 4 p (tab + 8 * i + 4) = ((offsKV preC.length kvs).getD i (0, 0)).2) →
      sizeKV kvs + 1 ≤ f → wfBKV kvs = true → preC.length + sizeKV kvs ≤ 2 ^ 32 →
      decodePairs (decode f) p tab kvs.length = some kvs := by
  intro kvs
  induction kvs with
  | nil =>
    intro _ f p preC post tab hp htab hf hwf hcap
    simp [decodePairs]
  | cons kv rest ih =>
    intro IH f p preC post tab hp htab hf hwf hcap
    have hwf2 : wfB kv.2 = true ∧ wfBKV rest = true := by
      simpa [wfBKV, Bool.and_eq_true] using hwf
    have hszk := strSize_pos kv.1
    have hszv := nodeSize_pos kv.2
    have hklen : kv.1.length < 2 ^ 32 := by
      have h1 := le_align4 (5 + kv.1.length)
      simp only [sizeKV, strSize] at hcap
      omega
    have hr0 := htab 0 (by simp)
    have hkoff : readLE 4 p tab = preC.length := by
      have h := hr0.1
      simpa [offsKV] using h
    have hvoff : readLE 4 p (tab + 4) = preC.length + strSize kv.1 := by
      have h := hr0.2
      simpa [offsKV] using h
    have hkey : decodeKey p preC.length = some kv.1 := by
      have hp2 : p = preC ++ (strNodeBytes kv.1
          ++ (emit (preC.length + strSize kv.1) kv.2
            ++ (emitKV (preC.length + strSize kv.1 + nodeSize kv.2) rest ++ post))) := by
        rw [hp]
        simp [emitKV]
      rw [hp2]
      exact decodeKey_at preC _ kv.1 hklen
    have hlenk : (preC ++ strNodeBytes kv.1).length = preC.length + strSize kv.1 := by
      simp [strNodeBytes_length]
    have hval : decode f p (preC.length + strSize kv.1) = some kv.2 := by
      have hp2 : p = (preC ++ strNodeBytes kv.1) ++ (emit (preC.length + strSize kv.1) kv.2
          ++ (emitKV (preC.length + strSize kv.1 + nodeSize kv.2) rest ++ post)) := by
        rw [hp]
        simp [emitKV]
      have h := IH kv (by simp) f (preC ++ strNodeBytes kv.1)
        (emitKV (preC.length + strSize kv.1 + nodeSize kv.2) rest ++ post)
        (by simp only [sizeKV] at hf; omega) hwf2.1
        (by rw [hlenk]; simp only [sizeKV] at hcap; omega)
      rw [hlenk] at h
      rw [← hp2] at h
      exact h
    have hlenkv : (preC ++ strNodeBytes kv.1 ++ emit (preC.length + strSize kv.1) kv.2).length
        = preC.length + strSize kv.1 + nodeSize kv.2 := by
      simp [strNodeBytes_length, emit_length]
      omega
    have hrest : decodePairs (decode f) p (tab + 8) rest.length = some rest := by
      apply ih (fun y hy => IH y (by simp [hy])) f p
        (preC ++ strNodeBytes kv.1 ++ emit (preC.length + strSize kv.1) kv.2) post (tab + 8)
      · rw [hlenkv, hp]
        simp [emitKV]
      · intro i hi
        have h := htab (i + 1) (by simp; omega)
        have hidx : tab + 8 * (i + 1) = tab + 8 + 8 * i := by omega
        rw [hidx] at h
        rw [hlenkv]
        constructor
        · have h1 := h.1
          simpa [offsKV] using h1
        · have h2 := h.2
          simpa [offsKV] using h2
      · simp only [sizeKV] at hf
        omega
      · exact hwf2.2
      · rw [hlenkv]
        simp only [sizeKV] at hcap
        omega
    have hc : (kv :: rest).length = rest.length + 1 := by simp
    rw [hc]
    simp only [decodePairs, hkoff, hvoff, hkey, hval, hrest]

/-! ## The main placement theorem: every emitted node decodes to itself -/

theorem pad4_of_length (l : List Nat) (m : Nat) (h : l.length = m) :
    pad4 l = l ++ List.replicate ((4 - m % 4) % 4) 0 := by
  rw [pad4, h]

theorem decode_emit : ∀ n, DecOK n := by
  intro n
  induction n using Node.myInduction with
  | hnull =>
    intro f pre post hf hwf hcap
    simp only [nodeSize] at hf
    cases f with
    | zero => omega
    | succ f' =>
      have he : emit pre.length Node.null = 0 :: [0, 0, 0] := rfl
      rw [he]
      simp only [List.cons_append, decode, tag_read]
  | hbool b =>
    intro f pre post hf hwf hcap
    simp only [nodeSize] at hf
    cases f with
    | zero => omega
    | succ f' =>
      have he : emit pre.length (Node.bool b) = 1 :: (if b then 1 else 0) :: [0, 0] := rfl
      rw [he]
      simp only [List.cons_append, decode, tag_read, byte1_read]
      cases b <;> simp
  | hint i =>
    intro f pre post hf hwf hcap
    simp only [nodeSize] at hf
    have hwfi : -(2 ^ 63) ≤ i ∧ i < 2 ^ 63 := by
      simpa [wfB, Bool.and_eq_true, decide_eq_true_eq] using hwf
    cases f with
    | zero => omega
    | succ f' =>
      have he : emit pre.length (Node.int i)
          = 2 :: (leBytes 8 (intToU64 i) ++ [0, 0, 0]) := by
        simp only [emit]
        rw [pad4_of_length _ 9 (by simp [leBytes_length])]
        rfl
      rw [he]
      have hv : intToU64 i < 256 ^ 8 := by
        have h1 := intToU64_lt i
        norm_num
        omega
      simp only [List.cons_append, List.append_assoc, decode, tag_read]
      rw [field_read pre 2 8 (intToU64 i) _ hv]
      rw [decodeI64_intToU64 i hwfi.1 hwfi.2]
  | hfloat bits =>
    intro f pre post hf hwf hcap
    simp only [nodeSize] at hf
    have hwfb : bits < 2 ^ 64 := by
      simpa [wfB, decide_eq_true_eq] using hwf
    cases f with
    | zero => omega
    | succ f' =>
      have he : emit pre.length (Node.float bits)
          = 3 :: (leBytes 8 bits ++ [0, 0, 0]) := by
        simp only [emit]
        rw [pad4_of_length _ 9 (by simp [leBytes_length])]
        rfl
      rw [he]
      have hv : bits < 256 ^ 8 := by norm_num; omega
      simp only [List.cons_append, List.append_assoc, decode, tag_read]
      rw [field_read pre 3 8 bits _ hv]
  | hstr s =>
    intro f pre post hf hwf hcap
    simp only [nodeSize, strSize] at hf hcap
    have hal := le_align4 (5 + s.length)
    have hlen : s.length < 256 ^ 4 := by norm_num; omega
    cases f with
    | zero => omega
    | succ f' =>
      obtain ⟨padding, hpad⟩ :
          ∃ padding, emit pre.length (Node.str s)
            = (4 :: (leBytes 4 s.length ++ s)) ++ padding := ⟨_, rfl⟩
      rw [hpad]
      simp only [List.cons_append, List.append_assoc, decode, tag_read]
      rw [field_read pre 4 4 s.length _ hlen]
      rw [payload_read pre 4 s.length s (padding ++ post) s.length, byteSlice_exact]
  | harr xs IH =>
    intro f pre post hf hwf hcap
    simp only [nodeSize] at hf hcap
    simp only [wfB] at hwf
    have hal := le_align4 (5 + 4 * xs.length)
    cases f with
    | zero => omega
    | succ f' =>
      simp only [emit]
      obtain ⟨padding, hpad⟩ : ∃ padding,
          pad4 (5 :: (leBytes 4 xs.length
              ++ tableL (pre.length + align4 (5 + 4 * xs.length)) xs))
            = (5 :: (leBytes 4 xs.length
              ++ tableL (pre.length + align4 (5 + 4 * xs.length)) xs)) ++ padding := ⟨_, rfl⟩
      have hpadlen : ((5 :: (leBytes 4 xs.length
          ++ tableL (pre.length + align4 (5 + 4 * xs.length)) xs)) ++ padding).length
            = align4 (5 + 4 * xs.length) := by
        rw [← hpad, pad4_length]
        simp only [List.length_cons, List.length_append, leBytes_length, tableL_length]
        congr 1
        omega
      rw [hpad]
      simp only [List.cons_append, List.append_assoc]
      have htag : byteAt (pre ++ 5 :: (leBytes 4 xs.length
          ++ (tableL (pre.length + align4 (5 + 4 * xs.length)) xs
            ++ (padding ++ (emitL (pre.length + align4 (5 + 4 * xs.length)) xs ++ post)))))
          pre.length = 5 := tag_read _ _ _
      have hcnt : readLE 4 (pre ++ 5 :: (leBytes 4 xs.length
          ++ (tableL (pre.length + align4 (5 + 4 * xs.length)) xs
            ++ (padding ++ (emitL (pre.length + align4 (5 + 4 * xs.length)) xs ++ post)))))
          (pre.length + 1) = xs.length := by
        apply field_read
        norm_num
        omega
      have htable : ∀ i, i < xs.length →
          readLE 4 (pre ++ 5 :: (leBytes 4 xs.length
            ++ (tableL (pre.length + align4 (5 + 4 * xs.length)) xs
              ++ (padding ++ (emitL (pre.length + align4 (5 + 4 * xs.length)) xs ++ post)))))
            (pre.length + 5 + 4 * i)
          = (offsL (pre.length + align4 (5 + 4 * xs.length)) xs).getD i 0 := by
        intro i hi
        have hbd : ∀ o ∈ offsL (pre.length + align4 (5 + 4 * xs.length)) xs, o < 2 ^ 32 := by
          intro o ho
          have h := offsL_bound xs _ o ho
          omega
        have h := table_read _ hbd (pre ++ (5 :: leBytes 4 xs.length))
          (padding ++ (emitL (pre.length + align4 (5 + 4 * xs.length)) xs ++ post)) i
          (by rw [offsL_length]; exact hi)
        have hplen : (pre ++ (5 :: leBytes 4 xs.length)).length = pre.length + 5 := by
          simp [leBytes_length]
        rw [hplen] at h
        have hshape : (pre ++ (5 :: leBytes 4 xs.length))
            ++ ((offsL (pre.length + align4 (5 + 4 * xs.length)) xs).flatMap (leBytes 4)
              ++ (padding ++ (emitL (pre.length + align4 (5 + 4 * xs.length)) xs ++ post)))
            = pre ++ 5 :: (leBytes 4 xs.length
              ++ (tableL (pre.length + align4 (5 + 4 * xs.length)) xs
                ++ (padding ++ (emitL (pre.length + align4 (5 + 4 * xs.length)) xs ++ post)))) := by
          simp [tableL]
        rw [hshape] at h
        exact h
      have hElems : decodeElems (decode f')
          (pre ++ 5 :: (leBytes 4 xs.length
            ++ (tableL (pre.length + align4 (5 + 4 * xs.length)) xs
              ++ (padding ++ (emitL (pre.length + align4 (5 + 4 * xs.length)) xs ++ post)))))
          (pre.length + 5) xs.length = some xs := by
        apply decodeElems_emitL xs IH f' _
          (pre ++ ((5 :: (leBytes 4 xs.length
            ++ tableL (pre.length + align4 (5 + 4 * xs.length)) xs)) ++ padding)) post
          (pre.length + 5)
        · rw [List.length_append, hpadlen]
          simp [List.append_assoc]
        · rw [List.length_append, hpadlen]
          intro i hi
          exact htable i hi
        · omega
        · exact hwf
        · rw [List.length_append, hpadlen]
          omega
      simp only [decode, htag, hcnt, hElems]
      rfl
  | hobj kvs IH =>
    intro f pre post hf hwf hcap
    simp only [nodeSize] at hf hcap
    simp only [wfB] at hwf
    have hal := le_align4 (5 + 8 * kvs.length)
    cases f with
    | zero => omega
    | succ f' =>
      simp only [emit]
      obtain ⟨padding, hpad⟩ : ∃ padding,
          pad4 (6 :: (leBytes 4 kvs.length
              ++ tableKV (pre.length + align4 (5 + 8 * kvs.length)) kvs))
            = (6 :: (leBytes 4 kvs.length
              ++ tableKV (pre.length + align4 (5 + 8 * kvs.length)) kvs)) ++ padding := ⟨_, rfl⟩
      have hpadlen : ((6 :: (leBytes 4 kvs.length
          ++ tableKV (pre.length + align4 (5 + 8 * kvs.length)) kvs)) ++ padding).length
            = align4 (5 + 8 * kvs.length) := by
        rw [← hpad, pad4_length]
        simp only [List.length_cons, List.length_append, leBytes_length, tableKV_length]
        congr 1
        omega
      rw [hpad]
      simp only [List.cons_append, List.append_assoc]
      have htag : byteAt (pre ++ 6 :: (leBytes 4 kvs.length
          ++ (tableKV (pre.length + align4 (5 + 8 * kvs.length)) kvs
            ++ (padding ++ (emitKV (pre.length + align4 (5 + 8 * kvs.length)) kvs ++ post)))))
          pre.length = 6 := tag_read _ _ _
      have hcnt : readLE 4 (pre ++ 6 :: (leBytes 4 kvs.length
          ++ (tableKV (pre.length + align4 (5 + 8 * kvs.length)) kvs
            ++ (padding ++ (emitKV (pre.length + align4 (5 + 8 * kvs.length)) kvs ++ post)))))
          (pre.length + 1) = kvs.length := by
        apply field_read
        norm_num
        omega
      have htable : ∀ i, i < kvs.length →
          readLE 4 (pre ++ 6 :: (leBytes 4 kvs.length
            ++ (tableKV (pre.length + align4 (5 + 8 * kvs.length)) kvs
              ++ (padding ++ (emitKV (pre.length + align4 (5 + 8 * kvs.length)) kvs ++ post)))))
            (pre.length + 5 + 8 * i)
            = ((offsKV (pre.length + align4 (5 + 8 * kvs.length)) kvs).getD i (0, 0)).1
          ∧ readLE 4 (pre ++ 6 :: (leBytes 4 kvs.length
            ++ (tableKV (pre.length + align4 (5 + 8 * kvs.length)) kvs
              ++ (padding ++ (emitKV (pre.length + align4 (5 + 8 * kvs.length)) kvs ++ post)))))
            (pre.length + 5 + 8 * i + 4)
            = ((offsKV (pre.length + align4 (5 + 8 * kvs.length)) kvs).getD i (0, 0)).2 := by
        intro i hi
        have hbd : ∀ ab ∈ offsKV (pre.length + align4 (5 + 8 * kvs.length)) kvs,
            ab.1 < 2 ^ 32 ∧ ab.2 < 2 ^ 32 := by
          intro ab hab
          have h := offsKV_bound kvs _ ab hab
          omega
        have h := tableKV_read _ hbd (pre ++ (6 :: leBytes 4 kvs.length))
          (padding ++ (emitKV (pre.length + align4 (5 + 8 * kvs.length)) kvs ++ post)) i
          (by rw [offsKV_length]; exact hi)
        have hplen : (pre ++ (6 :: leBytes 4 kvs.length)).length = pre.length + 5 := by
          simp [leBytes_length]
        rw [hplen] at h
        have hshape : (pre ++ (6 :: leBytes 4 kvs.length))
            ++ ((offsKV (pre.length + align4 (5 + 8 * kvs.length)) kvs).flatMap
                (fun ab => leBytes 4 ab.1 ++ leBytes 4 ab.2)
              ++ (padding ++ (emitKV (pre.length + align4 (5 + 8 * kvs.length)) kvs ++ post)))
            = pre ++ 6 :: (leBytes 4 kvs.length
              ++ (tableKV (pre.length + align4 (5 + 8 * kvs.length)) kvs
                ++ (padding ++ (emitKV (pre.length + align4 (5 + 8 * kvs.length)) kvs ++ post)))) := by
          simp [tableKV]
        rw [hshape] at h
        exact h
      have hPairs : decodePairs (decode f')
          (pre ++ 6 :: (leBytes 4 kvs.length
            ++ (tableKV (pre.length + align4 (5 + 8 * kvs.length)) kvs
              ++ (padding ++ (emitKV (pre.length + align4 (5 + 8 * kvs.length)) kvs ++ post)))))
          (pre.length + 5) kvs.length = some kvs := by
        apply decodePairs_emitKV kvs IH f' _
          (pre ++ ((6 :: (leBytes 4 kvs.length
            ++ tableKV (pre.length + align4 (5 + 8 * kvs.length)) kvs)) ++ padding)) post
          (pre.length + 5)
        · rw [List.length_append, hpadlen]
          simp [List.append_assoc]
        · rw [List.length_append, hpadlen]
          intro i hi
          exact htable i hi
        · omega
        · exact hwf
        · rw [List.length_append, hpadlen]
          omega
      simp only [decode, htag, hcnt, hPairs]
      rfl

/-! ## Canonicalization preserves well-formedness; key order is total -/

theorem canonL_map (xs : List Node) : canonL xs = xs.map canon := by
  induction xs with
  | nil => simp [canonL]
  | cons x rest ih => simp [canonL, ih]

theorem canonKV_map (kvs : List (List Nat × Node)) :
    canonKV kvs = kvs.map (fun kv => (kv.1, canon kv.2)) := by
  induction kvs with
  | nil => simp [canonKV]
  | cons kv rest ih => simp [canonKV, ih]

theorem canonKV_map_fst (kvs : List (List Nat × Node)) :
    (canonKV kvs).map Prod.fst = kvs.map Prod.fst := by
  rw [canonKV_map, List.map_map]
  rfl

theorem canon_wfB (n : Node) (h : wfB n = true) : wfB (canon n) = true := by
  induction n using Node.myInduction with
  | hnull => exact h
  | hbool b => exact h
  | hint i => exact h
  | hfloat b => exact h
  | hstr s => exact h
  | harr xs IH =>
    simp only [canon, wfB] at h ⊢
    rw [wfBL_iff] at h ⊢
    intro y hy
    rw [canonL_map, List.mem_map] at hy
    obtain ⟨x, hx, rfl⟩ := hy
    exact IH x hx (h x hx)
  | hobj kvs IH =>
    simp only [canon, wfB] at h ⊢
    rw [wfBKV_iff] at h ⊢
    intro kv hkv
    have hmem : kv ∈ canonKV kvs := (List.perm_insertionSort keyLe (canonKV kvs)).mem_iff.1 hkv
    rw [canonKV_map, List.mem_map] at hmem
    obtain ⟨kv0, hkv0, rfl⟩ := hmem
    exact IH kv0 hkv0 (h kv0 hkv0)

theorem byteLe_total : ∀ a b : List Nat, byteLe a b = true ∨ byteLe b a = true := by
  intro a
  induction a with
  | nil => intro b; left; simp [byteLe]
  | cons x as ih =>
    intro b
    cases b with
    | nil => right; simp [byteLe]
    | cons y bs =>
      rcases Nat.lt_trichotomy x y with h | h | h
      · left; simp [byteLe, h]
      · subst h
        rcases ih bs with h2 | h2
        · left; simp [byteLe, h2]
        · right; simp [byteLe, h2]
      · right; simp [byteLe, h]

theorem byteLe_trans :
    ∀ a b c : List Nat, byteLe a b = true → byteLe b c = true → byteLe a c = true := by
  intro a
  induction a with
  | nil => intro b c h1 h2; simp [byteLe]
  | cons x as ih =>
    intro b c h1 h2
    cases b with
    | nil => simp [byteLe] at h1
    | cons y bs =>
      cases c with
      | nil => simp [byteLe] at h2
      | cons z cs =>
        simp only [byteLe, Bool.or_eq_true, Bool.and_eq_true, decide_eq_true_eq,
          beq_iff_eq] at h1 h2 ⊢
        rcases h1 with h1 | ⟨rfl, h1⟩
        · rcases h2 with h2 | ⟨rfl, h2⟩
          · left; omega
          · left; exact h1
        · rcases h2 with h2 | ⟨rfl, h2⟩
          · left; exact h2
          · right; exact ⟨rfl, ih bs cs h1 h2⟩

instance : IsTotal (List Nat × Node) keyLe :=
  ⟨fun u v => byteLe_total u.1 v.1⟩

instance : IsTrans (List Nat × Node) keyLe :=
  ⟨fun _ _ _ h1 h2 => byteLe_trans _ _ _ h1 h2⟩

/-! ## C1: write/read round-trip -/

/-- C1: for every abstract tree produced by a parser (well-formed for format
version 1) whose image fits the 32-bit offset space, writing it with the
Writer and materializing it back through the Reader yields the tree itself,
up to object-key ordering being normalized to sorted order (canon). -/
theorem C1_write_read_roundtrip (t : Node) (srcSize srcMtime : Nat)
    (hwf : wfB t = true) (hcap : nodeSize (canon t) ≤ 2 ^ 32) :
    to_native (writeImage srcSize srcMtime t) = some (canon t) := by
  unfold to_native writeImage
  simp only
  have hlen : (emit 0 (canon t)).length = nodeSize (canon t) := emit_length (canon t) 0
  have h := decode_emit (canon t) (nodeSize (canon t) + 1) [] []
    (by omega) (canon_wfB t hwf) (by simpa using hcap)
  simp only [List.length_nil, List.nil_append, List.append_nil] at h
  rw [hlen]
  exact h

/-- Witness for C1 at a concrete document. -/
theorem C1_witness :
    wfB demoTree = true ∧ nodeSize (canon demoTree) ≤ 2 ^ 32
    ∧ to_native (writeImage 3 5 demoTree) = some (canon demoTree) :=
  ⟨by decide, by decide, C1_write_read_roundtrip demoTree 3 5 (by decide) (by decide)⟩

/-! ## C2: keys() yields sorted keys on any written object -/

theorem keysFrom_emitKV : ∀ (kvs : List (List Nat × Node)) (p preC post : List Nat) (tab : Nat),
    p = preC ++ (emitKV preC.length kvs ++ post) →
    (∀ i, i < kvs.length →
      readLE 4 p (tab + 8 * i) = ((offsKV preC.length kvs).getD i (0, 0)).1) →
    preC.length + sizeKV kvs ≤ 2 ^ 32 →
    keysFrom p tab kvs.length = some (kvs.map Prod.fst) := by
  intro kvs
  induction kvs with
  | nil =>
    intro p preC post tab hp htab hcap
    simp [keysFrom]
  | cons kv rest ih =>
    intro p preC post tab hp htab hcap
    have hszk := strSize_pos kv.1
    have hszv := nodeSize_pos kv.2
    have hklen : kv.1.length < 2 ^ 32 := by
      have h1 := le_align4 (5 + kv.1.length)
      simp only [sizeKV, strSize] at hcap
      omega
    have hkoff : readLE 4 p tab = preC.length := by
      have h := htab 0 (by simp)
      simpa [offsKV] using h
    have hkey : decodeKey p preC.length = some kv.1 := by
      have hp2 : p = preC ++ (strNodeBytes kv.1
          ++ (emit (preC.length + strSize kv.1) kv.2
            ++ (emitKV (preC.length + strSize kv.1 + nodeSize kv.2) rest ++ post))) := by
        rw [hp]
        simp [emitKV]
      rw [hp2]
      exact decodeKey_at preC _ kv.1 hklen
    have hlenkv : (preC ++ strNodeBytes kv.1 ++ emit (preC.length + strSize kv.1) kv.2).length
        = preC.length + strSize kv.1 + nodeSize kv.2 := by
      simp [strNodeBytes_length, emit_length]
      omega
    have hrest : keysFrom p (tab + 8) rest.length = some (rest.map Prod.fst) := by
      apply ih p (preC ++ strNodeBytes kv.1 ++ emit (preC.length + strSize kv.1) kv.2)
        post (tab + 8)
      · rw [hlenkv, hp]
        simp [emitKV]
      · intro i hi
        have h := htab (i + 1) (by simp; omega)
        have hidx : tab + 8 * (i + 1) = tab + 8 + 8 * i := by omega
        rw [hidx] at h
        rw [hlenkv]
        simpa [offsKV] using h
      · rw [hlenkv]
        simp only [sizeKV] at hcap
        omega
    have hc : (kv :: rest).length = rest.length + 1 := by simp
    rw [hc]
    simp only [keysFrom, hkoff, hkey, hrest]
    simp

/-- C2: on every Object node of a compiled image (the writer emits every
object with its entries sorted, captured by canon), the keys() iterator
yields the keys in lexicographic byte order, a permutation of the source
keys regardless of their order in the source document. -/
theorem C2_object_keys_sorted (kvs0 : List (List Nat × Node)) (pre post : List Nat)
    (hcap : pre.length + nodeSize (canon (.obj kvs0)) ≤ 2 ^ 32) :
    readerKeys (pre ++ (emit pre.length (canon (.obj kvs0)) ++ post)) pre.length
        = some ((sortKvs (canonKV kvs0)).map Prod.fst)
    ∧ List.Pairwise (fun a b => byteLe a b = true) ((sortKvs (canonKV kvs0)).map Prod.fst)
    ∧ ((sortKvs (canonKV kvs0)).map Prod.fst).Perm (kvs0.map Prod.fst) := by
  have hcanon : canon (.obj kvs0) = .obj (sortKvs (canonKV kvs0)) := by
    simp [canon]
  rw [hcanon] at hcap ⊢
  refine ⟨?_, ?_, ?_⟩
  · generalize hK : sortKvs (canonKV kvs0) = kvs at *
    simp only [nodeSize] at hcap
    have hal := le_align4 (5 + 8 * kvs.length)
    simp only [emit]
    obtain ⟨padding, hpad⟩ : ∃ padding,
        pad4 (6 :: (leBytes 4 kvs.length
            ++ tableKV (pre.length + align4 (5 + 8 * kvs.length)) kvs))
          = (6 :: (leBytes 4 kvs.length
            ++ tableKV (pre.length + align4 (5 + 8 * kvs.length)) kvs)) ++ padding := ⟨_, rfl⟩
    have hpadlen : ((6 :: (leBytes 4 kvs.length
        ++ tableKV (pre.length + align4 (5 + 8 * kvs.length)) kvs)) ++ padding).length
          = align4 (5 + 8 * kvs.length) := by
      rw [← hpad, pad4_length]
      simp only [List.length_cons, List.length_append, leBytes_length, tableKV_length]
      congr 1
      omega
    rw [hpad]
    simp only [List.cons_append, List.append_assoc]
    have htag : byteAt (pre ++ 6 :: (leBytes 4 kvs.length
        ++ (tableKV (pre.length + align4 (5 + 8 * kvs.length)) kvs
          ++ (padding ++ (emitKV (pre.length + align4 (5 + 8 * kvs.length)) kvs ++ post)))))
        pre.length = 6 := tag_read _ _ _
    have hcnt : readLE 4 (pre ++ 6 :: (leBytes 4 kvs.length
        ++ (tableKV (pre.length + align4 (5 + 8 * kvs.length)) kvs
          ++ (padding ++ (emitKV (pre.length + align4 (5 + 8 * kvs.length)) kvs ++ post)))))
        (pre.length + 1) = kvs.length := by
      apply field_read
      norm_num
      omega
    have htable : ∀ i, i < kvs.length →
        readLE 4 (pre ++ 6 :: (leBytes 4 kvs.length
          ++ (tableKV (pre.length + align4 (5 + 8 * kvs.length)) kvs
            ++ (padding ++ (emitKV (pre.length + align4 (5 + 8 * kvs.length)) kvs ++ post)))))
          (pre.length + 5 + 8 * i)
          = ((offsKV (pre.length + align4 (5 + 8 * kvs.length)) kvs).getD i (0, 0)).1 := by
      intro i hi
      have hbd : ∀ ab ∈ offsKV (pre.length + align4 (5 + 8 * kvs.length)) kvs,
          ab.1 < 2 ^ 32 ∧ ab.2 < 2 ^ 32 := by
        intro ab hab
        have h := offsKV_bound kvs _ ab hab
        omega
      have h := (tableKV_read _ hbd (pre ++ (6 :: leBytes 4 kvs.length))
        (padding ++ (emitKV (pre.length + align4 (5 + 8 * kvs.length)) kvs ++ post)) i
        (by rw [offsKV_length]; exact hi)).1
      have hplen : (pre ++ (6 :: leBytes 4 kvs.length)).length = pre.length + 5 := by
        simp [leBytes_length]
      rw [hplen] at h
      have hshape : (pre ++ (6 :: leBytes 4 kvs.length))
          ++ ((offsKV (pre.length + align4 (5 + 8 * kvs.length)) kvs).flatMap
              (fun ab => leBytes 4 ab.1 ++ leBytes 4 ab.2)
            ++ (padding ++ (emitKV (pre.length + align4 (5 + 8 * kvs.length)) kvs ++ post)))
          = pre ++ 6 :: (leBytes 4 kvs.length
            ++ (tableKV (pre.length + align4 (5 + 8 * kvs.length)) kvs
              ++ (padding ++ (emitKV (pre.length + align4 (5 + 8 * kvs.length)) kvs ++ post)))) := by
        simp [tableKV]
      rw [hshape] at h
      exact h
    have hKeys : keysFrom
        (pre ++ 6 :: (leBytes 4 kvs.length
          ++ (tableKV (pre.length + align4 (5 + 8 * kvs.length)) kvs
            ++ (padding ++ (emitKV (pre.length + align4 (5 + 8 * kvs.length)) kvs ++ post)))))
        (pre.length + 5) kvs.length = some (kvs.map Prod.fst) := by
      apply keysFrom_emitKV kvs _
        (pre ++ ((6 :: (leBytes 4 kvs.length
          ++ tableKV (pre.length + align4 (5 + 8 * kvs.length)) kvs)) ++ padding)) post
        (pre.length + 5)
      · rw [List.length_append, hpadlen]
        simp [List.append_assoc]
      · rw [List.length_append, hpadlen]
        intro i hi
        exact htable i hi
      · rw [List.length_append, hpadlen]
        omega
    unfold readerKeys
    rw [htag, hcnt, hKeys]
    simp
  · have hs : List.Pairwise keyLe (sortKvs (canonKV kvs0)) :=
      List.sorted_insertionSort keyLe (canonKV kvs0)
    exact List.Pairwise.map Prod.fst (fun a b h => h) hs
  · have hperm := (List.perm_insertionSort keyLe (canonKV kvs0)).map Prod.fst
    rw [canonKV_map_fst] at hperm
    exact hperm

/-- Witness for C2 at a concrete unordered object. -/
theorem C2_witness :
    (0 : Nat) + nodeSize (canon (.obj [([98], Node.int 1), ([97], Node.null)])) ≤ 2 ^ 32
    ∧ readerKeys (emit 0 (canon (.obj [([98], Node.int 1), ([97], Node.null)]))) 0
      = some [[97], [98]] := by
  constructor
  · decide
  · have h := (C2_object_keys_sorted [([98], Node.int 1), ([97], Node.null)] [] [] (by decide)).1
    simp only [List.length_nil, List.nil_append, List.append_nil] at h
    rw [h]
    decide

/-! ## C5 and C6: navigation errors -/

theorem bsearch_some (kvs : List (List Nat × Node)) (k : List Nat) :
    ∀ fu lo hi v, bsearch kvs k fu lo hi = some v →
      ∃ i, lo ≤ i ∧ i < hi ∧ kvs.getD i ([], Node.null) = (k, v) := by
  intro fu
  induction fu with
  | zero => intro lo hi v h; simp [bsearch] at h
  | succ fu ih =>
    intro lo hi v h
    simp only [bsearch] at h
    by_cases hlt : lo < hi
    · rw [if_pos hlt] at h
      by_cases heq : k = (kvs.getD ((lo + hi) / 2) ([], Node.null)).1
      · rw [if_pos heq] at h
        refine ⟨(lo + hi) / 2, by omega, by omega, ?_⟩
        have hv : (kvs.getD ((lo + hi) / 2) ([], Node.null)).2 = v := by
          injection h
        rw [Prod.ext_iff]
        exact ⟨heq.symm, hv⟩
      · rw [if_neg heq] at h
        by_cases hle : byteLe (kvs.getD ((lo + hi) / 2) ([], Node.null)).1 k = true
        · rw [if_pos hle] at h
          obtain ⟨i, h1, h2, h3⟩ := ih _ _ _ h
          exact ⟨i, by omega, h2, h3⟩
        · rw [if_neg hle] at h
          obtain ⟨i, h1, h2, h3⟩ := ih _ _ _ h
          exact ⟨i, h1, by omega, h3⟩
    · rw [if_neg hlt] at h
      exact absurd h (by simp)

theorem objKey_none (kvs : List (List Nat × Node)) (k : List Nat)
    (h : k ∉ kvs.map Prod.fst) : objKey kvs k = none := by
  cases hv : objKey kvs k with
  | none => rfl
  | some v =>
    exfalso
    obtain ⟨i, _, h2, h3⟩ := bsearch_some kvs k _ _ _ _ hv
    have hget : kvs.getD i ([], Node.null) = kvs[i] := List.getD_eq_getElem kvs _ h2
    have hmem : (k, v) ∈ kvs := by
      rw [← h3, hget]
      exact List.getElem_mem h2
    exact h (List.mem_map_of_mem Prod.fst hmem)

/-- C6: on an Object node, looking up a key not present fails with the
catchable KeyMissing error; on an Array node of length n, indexed access
outside [0, n) fails with the catchable IndexOutOfRange error. -/
theorem C6_key_missing_index_out_of_range :
    (∀ (kvs : List (List Nat × Node)) (k : List Nat), k ∉ kvs.map Prod.fst →
      rdKey (.obj kvs) k = .error .keyMissing)
    ∧ (∀ (xs : List Node) (i : Int), ¬ (0 ≤ i ∧ i < (xs.length : Int)) →
      rdIndex (.arr xs) i = .error .indexOutOfRange) := by
  constructor
  · intro kvs k h
    simp [rdKey, objKey_none kvs k h]
  · intro xs i h
    simp only [rdIndex]
    rw [if_neg h]

/-- Witness for C6: a missing key and out-of-range indices on both sides. -/
theorem C6_witness :
    ([122] ∉ ([([97], Node.null)].map Prod.fst)
      ∧ rdKey (.obj [([97], Node.null)]) [122] = .error .keyMissing)
    ∧ (¬ ((0 : Int) ≤ 100 ∧ (100 : Int) < (([Node.null] : List Node).length : Int))
      ∧ rdIndex (.arr [Node.null]) 100 = .error .indexOutOfRange)
    ∧ (¬ ((0 : Int) ≤ -1 ∧ (-1 : Int) < (([Node.null] : List Node).length : Int))
      ∧ rdIndex (.arr [Node.null]) (-1) = .error .indexOutOfRange) :=
  ⟨⟨by decide, C6_key_missing_index_out_of_range.1 [([97], Node.null)] [122] (by decide)⟩,
    ⟨by decide, C6_key_missing_index_out_of_range.2 [Node.null] 100 (by decide)⟩,
    ⟨by decide, C6_key_missing_index_out_of_range.2 [Node.null] (-1) (by decide)⟩⟩

/-- C5: dotted-path traversal fails with PathTypeMismatch when a segment
must descend past a scalar node or a non-numeric segment is applied to an
Array node; in particular get("0.id.more") on the array-rooted document
[(id 1), (id 2)] yields PathTypeMismatch. -/
theorem C5_path_type_mismatch :
    (∀ (n : Node) (seg : List Nat) (rest : List (List Nat)), scalarNode n = true →
      getPath n (seg :: rest) = .error .pathTypeMismatch)
    ∧ (∀ (xs : List Node) (seg : List Nat) (rest : List (List Nat)), parseNatBytes seg = none →
      getPath (.arr xs) (seg :: rest) = .error .pathTypeMismatch)
    ∧ get arrDoc (asciiBytes ("0.id.more")) = .error .pathTypeMismatch := by
  refine ⟨?_, ?_, by rfl⟩
  · intro n seg rest h
    cases n with
    | null => rfl
    | bool b => rfl
    | int i => rfl
    | float b => rfl
    | str s => rfl
    | arr xs => simp [scalarNode] at h
    | obj kvs => simp [scalarNode] at h
  · intro xs seg rest h
    simp [getPath, h]

/-- Witness for C5: a scalar descent and a non-numeric array segment. -/
theorem C5_witness :
    (scalarNode (Node.int 7) = true
      ∧ getPath (Node.int 7) [[120]] = .error .pathTypeMismatch)
    ∧ (parseNatBytes [120] = none
      ∧ getPath (.arr []) [[120]] = .error .pathTypeMismatch) :=
  ⟨⟨by decide, C5_path_type_mismatch.1 (Node.int 7) [120] [] (by decide)⟩,
    ⟨by decide, C5_path_type_mismatch.2.1 [] [120] [] (by decide)⟩⟩

/-! ## C3 and C4: scalar coercion case analysis -/

theorem parseDec_head (v : List Nat) (i : Int) (h : parseDec v = some i) :
    ∃ b bs, v = b :: bs ∧ (b = 45 ∨ (48 ≤ b ∧ b ≤ 57)) := by
  cases v with
  | nil => simp [parseDec] at h
  | cons b bs =>
    by_cases hb : b = 45
    · exact ⟨b, bs, rfl, Or.inl hb⟩
    · refine ⟨b, bs, rfl, Or.inr ?_⟩
      simp only [parseDec, if_neg hb] at h
      by_cases hd : (b :: bs).all isDigit = true
      · have hdb : isDigit b = true := by
          simp only [List.all_cons, Bool.and_eq_true] at hd
          exact hd.1
        simpa [isDigit, Bool.and_eq_true, decide_eq_true_eq] using hdb
      · rw [if_neg hd] at h
        exact absurd h (by simp)

theorem isFloatText_head (v : List Nat) (h : isFloatText v = true) :
    ∃ b bs, v = b :: bs ∧ (b = 45 ∨ (48 ≤ b ∧ b ≤ 57)) := by
  cases v with
  | nil => simp [isFloatText] at h
  | cons b bs =>
    by_cases hb : b = 45
    · exact ⟨b, bs, rfl, Or.inl hb⟩
    · refine ⟨b, bs, rfl, Or.inr ?_⟩
      simp only [isFloatText, if_neg hb, isUFloat, digitsThen] at h
      by_cases hd : isDigit b = true
      · simpa [isDigit, Bool.and_eq_true, decide_eq_true_eq] using hd
      · rw [if_neg hd] at h
        exact absurd h (by simp)

theorem head_of_lowerBytes_eq (b : Nat) (bs l : List Nat) (c : Nat)
    (h : lowerBytes (b :: bs) = c :: l) : lowerByte b = c := by
  simp only [lowerBytes, List.map_cons, List.cons.injEq] at h
  exact h.1

theorem guards_false_of_numeric_head (v : List Nat) (b : Nat) (bs : List Nat)
    (hv : v = b :: bs) (hb : b = 45 ∨ (48 ≤ b ∧ b ≤ 57)) :
    lowerBytes v ≠ asciiBytes ("nil") ∧ lowerBytes v ≠ asciiBytes ("null")
    ∧ lowerBytes v ≠ asciiBytes ("none") ∧ lowerBytes v ≠ asciiBytes ("true")
    ∧ lowerBytes v ≠ asciiBytes ("false") := by
  subst hv
  have hlb : lowerByte b = b := by
    unfold lowerByte
    rw [if_neg (by omega)]
  have hx : ∀ (w : List Nat) (c : Nat) (l : List Nat), w = c :: l → 97 ≤ c →
      lowerBytes (b :: bs) ≠ w := by
    intro w c l hw hc h
    rw [hw] at h
    have hhead := head_of_lowerBytes_eq b bs l c h
    rw [hlb] at hhead
    omega
  exact ⟨hx _ 110 [105, 108] (by decide) (by omega),
    hx _ 110 [117, 108, 108] (by decide) (by omega),
    hx _ 110 [111, 110, 101] (by decide) (by omega),
    hx _ 116 [114, 117, 101] (by decide) (by omega),
    hx _ 102 [97, 108, 115, 101] (by decide) (by omega)⟩

/-- C4: INI scalar coercion: empty value to empty String; nil, null, None in
any case to Null; true and false in any case to Bool; a pure decimal integer
to Int; any other value to String with surrounding quotes stripped. -/
theorem C4_ini_scalar_coercion (v : List Nat) :
    (v = [] → ini_coerce v = .str [])
    ∧ (lowerBytes v = asciiBytes ("nil") ∨ lowerBytes v = asciiBytes ("null")
        ∨ lowerBytes v = asciiBytes ("none") → ini_coerce v = .null)
    ∧ (lowerBytes v = asciiBytes ("true") → ini_coerce v = .bool true)
    ∧ (lowerBytes v = asciiBytes ("false") → ini_coerce v = .bool false)
    ∧ (∀ i : Int, parseDec v = some i → ini_coerce v = .int i)
    ∧ (v ≠ [] →
        ¬ (lowerBytes v = asciiBytes ("nil") ∨ lowerBytes v = asciiBytes ("null")
          ∨ lowerBytes v = asciiBytes ("none"))
        → lowerBytes v ≠ asciiBytes ("true") → lowerBytes v ≠ asciiBytes ("false")
        → parseDec v = none → ini_coerce v = .str (stripQuotes v)) := by
  refine ⟨?_, ?_, ?_, ?_, ?_, ?_⟩
  · intro h
    subst h
    rfl
  · intro h
    have hne : v ≠ [] := by
      intro he
      subst he
      rcases h with h | h | h <;> exact absurd h (by decide)
    unfold ini_coerce
    rw [if_neg hne, if_pos h]
  · intro h
    have hne : v ≠ [] := by
      intro he
      subst he
      exact absurd h (by decide)
    have hng : ¬ (lowerBytes v = asciiBytes ("nil") ∨ lowerBytes v = asciiBytes ("null")
        ∨ lowerBytes v = asciiBytes ("none")) := by
      rintro (h2 | h2 | h2) <;> rw [h] at h2 <;> exact absurd h2 (by decide)
    unfold ini_coerce
    rw [if_neg hne, if_neg hng, if_pos h]
  · intro h
    have hne : v ≠ [] := by
      intro he
      subst he
      exact absurd h (by decide)
    have hng : ¬ (lowerBytes v = asciiBytes ("nil") ∨ lowerBytes v = asciiBytes ("null")
        ∨ lowerBytes v = asciiBytes ("none")) := by
      rintro (h2 | h2 | h2) <;> rw [h] at h2 <;> exact absurd h2 (by decide)
    have hnt : lowerBytes v ≠ asciiBytes ("true") := by
      intro h2
      rw [h] at h2
      exact absurd h2 (by decide)
    unfold ini_coerce
    rw [if_neg hne, if_neg hng, if_neg hnt, if_pos h]
  · intro i h
    obtain ⟨b, bs, hv, hb⟩ := parseDec_head v i h
    have hg := guards_false_of_numeric_head v b bs hv hb
    have hne : v ≠ [] := by rw [hv]; simp
    have hng : ¬ (lowerBytes v = asciiBytes ("nil") ∨ lowerBytes v = asciiBytes ("null")
        ∨ lowerBytes v = asciiBytes ("none")) := by
      rintro (h2 | h2 | h2)
      · exact hg.1 h2
      · exact hg.2.1 h2
      · exact hg.2.2.1 h2
    unfold ini_coerce
    rw [if_neg hne, if_neg hng, if_neg hg.2.2.2.1, if_neg hg.2.2.2.2, h]
  · intro hne hng hnt hnf h
    unfold ini_coerce
    rw [if_neg hne, if_neg hng, if_neg hnt, if_neg hnf, h]

/-- Witness for C4 at the values of scenario S2 plus an integer and a word. -/
theorem C4_witness :
    ini_coerce (asciiBytes ("")) = .str []
    ∧ ini_coerce (asciiBytes ("nil")) = .null
    ∧ ini_coerce (asciiBytes ("TRUE")) = .bool true
    ∧ ini_coerce (asciiBytes ("False")) = .bool false
    ∧ ini_coerce (asciiBytes ("5432")) = .int 5432
    ∧ ini_coerce (asciiBytes ("redis")) = .str (stripQuotes (asciiBytes ("redis"))) :=
  ⟨(C4_ini_scalar_coercion _).1 (by decide),
    (C4_ini_scalar_coercion _).2.1 (by decide),
    (C4_ini_scalar_coercion _).2.2.1 (by decide),
    (C4_ini_scalar_coercion _).2.2.2.1 (by decide),
    (C4_ini_scalar_coercion _).2.2.2.2.1 5432 (by decide),
    (C4_ini_scalar_coercion _).2.2.2.2.2 (by decide) (by decide) (by decide) (by decide)
      (by decide)⟩

/-- C3 counterexample: the dotenv coercion is not identical to the INI
coercion as the claim states: on the non-integer numeric text 30.5 it
produces a Float, not a String (fixed by TestEnv.test_env_types). -/
theorem C3_counterexample :
    env_coerce (asciiBytes ("30.5")) = .float (asciiBytes ("30.5"))
    ∧ env_coerce (asciiBytes ("30.5")) ≠ .str (asciiBytes ("30.5"))
    ∧ env_coerce (asciiBytes ("30.5")) ≠ ini_coerce (asciiBytes ("30.5")) := by
  refine ⟨by decide, by decide, by decide⟩

/-- C3 (amended): dotenv scalar coercion follows the INI rules on empty,
null-words, booleans and pure decimal integers; non-integer decimal numeric
text such as 30.5 coerces to Float; every other value coerces to String with
surrounding quotes stripped. -/
theorem C3_env_scalar_coercion (v : List Nat) :
    (v = [] → env_coerce v = .str [])
    ∧ (lowerBytes v = asciiBytes ("nil") ∨ lowerBytes v = asciiBytes ("null")
        ∨ lowerBytes v = asciiBytes ("none") → env_coerce v = .null)
    ∧ (lowerBytes v = asciiBytes ("true") → env_coerce v = .bool true)
    ∧ (lowerBytes v = asciiBytes ("false") → env_coerce v = .bool false)
    ∧ (∀ i : Int, parseDec v = some i → env_coerce v = .int i)
    ∧ (parseDec v = none → isFloatText v = true → env_coerce v = .float v)
    ∧ (v ≠ [] →
        ¬ (lowerBytes v = asciiBytes ("nil") ∨ lowerBytes v = asciiBytes ("null")
          ∨ lowerBytes v = asciiBytes ("none"))
        → lowerBytes v ≠ asciiBytes ("true") → lowerBytes v ≠ asciiBytes ("false")
        → parseDec v = none → isFloatText v = false
        → env_coerce v = .str (stripQuotes v)) := by
  refine ⟨?_, ?_, ?_, ?_, ?_, ?_, ?_⟩
  · intro h
    subst h
    rfl
  · intro h
    have hne : v ≠ [] := by
      intro he
      subst he
      rcases h with h | h | h <;> exact absurd h (by decide)
    unfold env_coerce
    rw [if_neg hne, if_pos h]
  · intro h
    have hne : v ≠ [] := by
      intro he
      subst he
      exact absurd h (by decide)
    have hng : ¬ (lowerBytes v = asciiBytes ("nil") ∨ lowerBytes v = asciiBytes ("null")
        ∨ lowerBytes v = asciiBytes ("none")) := by
      rintro (h2 | h2 | h2) <;> rw [h] at h2 <;> exact absurd h2 (by decide)
    unfold env_coerce
    rw [if_neg hne, if_neg hng, if_pos h]
  · intro h
    have hne : v ≠ [] := by
      intro he
      subst he
      exact absurd h (by decide)
    have hng : ¬ (lowerBytes v = asciiBytes ("nil") ∨ lowerBytes v = asciiBytes ("null")
        ∨ lowerBytes v = asciiBytes ("none")) := by
      rintro (h2 | h2 | h2) <;> rw [h] at h2 <;> exact absurd h2 (by decide)
    have hnt : lowerBytes v ≠ asciiBytes ("true") := by
      intro h2
      rw [h] at h2
      exact absurd h2 (by decide)
    unfold env_coerce
    rw [if_neg hne, if_neg hng, if_neg hnt, if_pos h]
  · intro i h
    obtain ⟨b, bs, hv, hb⟩ := parseDec_head v i h
    have hg := guards_false_of_numeric_head v b bs hv hb
    have hne : v ≠ [] := by rw [hv]; simp
    have hng : ¬ (lowerBytes v = asciiBytes ("nil") ∨ lowerBytes v = asciiBytes ("null")
        ∨ lowerBytes v = asciiBytes ("none")) := by
      rintro (h2 | h2 | h2)
      · exact hg.1 h2
      · exact hg.2.1 h2
      · exact hg.2.2.1 h2
    unfold env_coerce
    rw [if_neg hne, if_neg hng, if_neg hg.2.2.2.1, if_neg hg.2.2.2.2, h]
  · intro hdec hfl
    obtain ⟨b, bs, hv, hb⟩ := isFloatText_head v hfl
    have hg := guards_false_of_numeric_head v b bs hv hb
    have hne : v ≠ [] := by rw [hv]; simp
    have hng : ¬ (lowerBytes v = asciiBytes ("nil") ∨ lowerBytes v = asciiBytes ("null")
        ∨ lowerBytes v = asciiBytes ("none")) := by
      rintro (h2 | h2 | h2)
      · exact hg.1 h2
      · exact hg.2.1 h2
      · exact hg.2.2.1 h2
    unfold env_coerce
    rw [if_neg hne, if_neg hng, if_neg hg.2.2.2.1, if_neg hg.2.2.2.2, hdec, if_pos hfl]
  · intro hne hng hnt hnf hdec hfl
    unfold env_coerce
    rw [if_neg hne, if_neg hng, if_neg hnt, if_neg hnf, hdec, hfl]
    simp

/-- Witness for C3 at the values of scenario S3 plus the float 30.5. -/
theorem C3_witness :
    env_coerce (asciiBytes ("")) = .str []
    ∧ env_coerce (asciiBytes ("nil")) = .null
    ∧ env_coerce (asciiBytes ("true")) = .bool true
    ∧ env_coerce (asciiBytes ("42")) = .int 42
    ∧ env_coerce (asciiBytes ("30.5")) = .float (asciiBytes ("30.5"))
    ∧ env_coerce (asciiBytes ("bar")) = .str (stripQuotes (asciiBytes ("bar"))) :=
  ⟨(C3_env_scalar_coercion _).1 (by decide),
    (C3_env_scalar_coercion _).2.1 (by decide),
    (C3_env_scalar_coercion _).2.2.1 (by decide),
    (C3_env_scalar_coercion _).2.2.2.2.1 42 (by decide),
    (C3_env_scalar_coercion _).2.2.2.2.2.1 (by decide) (by decide),
    (C3_env_scalar_coercion _).2.2.2.2.2.2 (by decide) (by decide) (by decide) (by decide)
      (by decide) (by decide)⟩

/-! ## C7 and C8: freshness determinism and cache clearing -/

theorem load_fresh_after (parse : List Nat → Node) (src : SourceFile) (img : Option Image) :
    cacheFresh src ((load parse src img false).1) = true := by
  by_cases h : cacheFresh src img = true
  · simp [load, h]
  · simp only [load, h, Bool.false_or]
    simp [cacheFresh, compileImage, writeImage]

/-- C7: if the source bytes and mtime do not change, every load after the
first performs zero writes: the image produced by any load is reported fresh
by cache_info, and a further load returns it unchanged with no write. -/
theorem C7_fresh_load_no_write (parse : List Nat → Node) (src : SourceFile)
    (img : Option Image) :
    load parse src ((load parse src img false).1) false = ((load parse src img false).1, false)
    ∧ (cache_info (some src) ((load parse src img false).1)).cache_fresh = true := by
  have hfresh := load_fresh_after parse src img
  constructor
  · generalize hX : (load parse src img false).1 = X at hfresh ⊢
    simp [load, hfresh]
  · simp [cache_info, hfresh]

/-- C8: clear_cache removes the image when present and returns true exactly
when a file was removed; after a load (which always leaves an image) a
clear_cache returns true and the image file no longer exists. -/
theorem C8_clear_cache (img : Option Image) (parse : List Nat → Node) (src : SourceFile)
    (force : Bool) :
    ((clear_cache img).1 = true ↔ img.isSome = true)
    ∧ (clear_cache img).2 = none
    ∧ (clear_cache (load parse src img force).1).1 = true
    ∧ (clear_cache (load parse src img force).1).2 = none := by
  refine ⟨Iff.rfl, rfl, ?_, rfl⟩
  unfold clear_cache
  by_cases h : (force || !cacheFresh src img) = true
  · simp [load, h]
  · cases img with
    | none => simp [cacheFresh] at h
    | some im =>
      simp only [load, h]
      rfl

/-! ## C9 and C10: dotenv export into the process environment -/

theorem envGet_envSet_self (e : EnvMap) (k v : List Nat) :
    envGet (envSet e k v) k = some v := by
  induction e with
  | nil => simp [envSet, envGet]
  | cons kv rest ih =>
    by_cases h : kv.1 = k
    · simp [envSet, h, envGet]
    · simp [envSet, h, envGet, ih]

theorem envGet_envSet_other (e : EnvMap) (k k2 v : List Nat) (h : k2 ≠ k) :
    envGet (envSet e k v) k2 = envGet e k2 := by
  induction e with
  | nil =>
    simp only [envSet, envGet]
    rw [if_neg (Ne.symm h)]
  | cons kv rest ih =>
    by_cases hk : kv.1 = k
    · simp only [envSet, if_pos hk, envGet]
      rw [if_neg (Ne.symm h), if_neg (by rw [hk]; exact Ne.symm h)]
    · simp only [envSet, if_neg hk, envGet]
      by_cases h2 : kv.1 = k2
      · rw [if_pos h2, if_pos h2]
      · rw [if_neg h2, if_neg h2, ih]

theorem lastVal_cons (kv : List Nat × EnvValue) (rest : List (List Nat × EnvValue))
    (k : List Nat) :
    lastVal (kv :: rest) k
      = match lastVal rest k with
        | some v => some v
        | none => if kv.1 = k then some kv.2 else none := by
  unfold lastVal
  rw [List.reverse_cons, List.find?_append]
  cases hf : List.find? (fun kv => kv.1 = k) rest.reverse with
  | some a => simp [Option.orElse, hf]
  | none =>
    simp only [Option.orElse, hf, Option.map]
    by_cases hk : kv.1 = k
    · simp [List.find?, hk]
    · simp [List.find?, hk]

theorem dotenvStep_true (acc : Nat × EnvMap) (kv : List Nat × EnvValue) :
    dotenvStep true acc kv = (acc.1 + 1, envSet acc.2 kv.1 (envString kv.2)) := by
  simp [dotenvStep]

theorem dotenvStep_false_free (acc : Nat × EnvMap) (kv : List Nat × EnvValue)
    (h : (envGet acc.2 kv.1).isNone = true) :
    dotenvStep false acc kv = (acc.1 + 1, envSet acc.2 kv.1 (envString kv.2)) := by
  simp [dotenvStep, h]

theorem dotenvStep_false_skip (acc : Nat × EnvMap) (kv : List Nat × EnvValue)
    (h : (envGet acc.2 kv.1).isNone = false) :
    dotenvStep false acc kv = acc := by
  simp [dotenvStep, h]

theorem foldl_dotenv_true (l : List (List Nat × EnvValue)) :
    ∀ (acc : Nat × EnvMap) (k : List Nat),
      envGet ((l.foldl (dotenvStep true) acc).2) k
        = match lastVal l k with
          | some v => some (envString v)
          | none => envGet acc.2 k := by
  induction l with
  | nil => intro acc k; simp [lastVal]
  | cons kv rest ih =>
    intro acc k
    rw [List.foldl_cons, ih, lastVal_cons]
    cases hf : lastVal rest k with
    | some v => simp
    | none =>
      by_cases hk : kv.1 = k
      · rw [if_pos hk, dotenvStep_true]
        rw [hk]
        exact envGet_envSet_self acc.2 k (envString kv.2)
      · rw [if_neg hk, dotenvStep_true]
        exact envGet_envSet_other acc.2 kv.1 k _ (fun hh => hk hh.symm)

theorem foldl_dotenv_true_count (l : List (List Nat × EnvValue)) :
    ∀ acc : Nat × EnvMap, (l.foldl (dotenvStep true) acc).1 = acc.1 + l.length := by
  induction l with
  | nil => intro acc; simp
  | cons kv rest ih =>
    intro acc
    rw [List.foldl_cons, dotenvStep_true, ih]
    simp
    omega

theorem foldl_dotenv_false (l : List (List Nat × EnvValue)) :
    ∀ (acc : Nat × EnvMap) (k w : List Nat),
      envGet acc.2 k = some w →
      envGet ((l.foldl (dotenvStep false) acc).2) k = some w := by
  induction l with
  | nil => intro acc k w h; simpa using h
  | cons kv rest ih =>
    intro acc k w h
    rw [List.foldl_cons]
    apply ih
    by_cases hv : (envGet acc.2 kv.1).isNone = true
    · by_cases hk : kv.1 = k
      · rw [hk, h] at hv
        simp at hv
      · rw [dotenvStep_false_free acc kv hv]
        rw [envGet_envSet_other acc.2 kv.1 k _ (fun hh => hk hh.symm)]
        exact h
    · rw [dotenvStep_false_skip acc kv (Bool.eq_false_iff.2 hv)]
      exact h

/-- C9: load_dotenv writes each parsed variable into the process environment
under the textual form of its coerced value (the last assignment of a key
wins), a value coerced to Bool true is exported as the lowercase string
true, and the returned count of variables written is positive for a file
holding at least one variable. -/
theorem C9_load_dotenv_coerced_export (text : List Nat) (env : EnvMap)
    (h : parse_env text ≠ []) :
    0 < (load_dotenv text true env).1
    ∧ (∀ (k : List Nat) (v : EnvValue), lastVal (parse_env text) k = some v →
        envGet (load_dotenv text true env).2 k = some (envString v))
    ∧ envString (.bool true) = asciiBytes ("true") := by
  refine ⟨?_, ?_, by decide⟩
  · unfold load_dotenv
    rw [foldl_dotenv_true_count]
    have hl : 0 < (parse_env text).length := List.length_pos.2 h
    omega
  · intro k v hv
    unfold load_dotenv
    rw [foldl_dotenv_true]
    simp [hv]

/-- Witness for C9: DEBUG=TRUE followed by an unquoted inline comment is
exported as the lowercase textual form true, not the raw source text. -/
theorem C9_witness :
    parse_env (asciiBytes ("DEBUG=TRUE # flag")) ≠ []
    ∧ 0 < (load_dotenv (asciiBytes ("DEBUG=TRUE # flag")) true []).1
    ∧ envGet (load_dotenv (asciiBytes ("DEBUG=TRUE # flag")) true []).2 (asciiBytes ("DEBUG"))
      = some (asciiBytes ("true")) := by
  refine ⟨by decide,
    (C9_load_dotenv_coerced_export (asciiBytes ("DEBUG=TRUE # flag")) [] (by decide)).1, ?_⟩
  have h := (C9_load_dotenv_coerced_export (asciiBytes ("DEBUG=TRUE # flag")) [] (by decide)).2.1
    (asciiBytes ("DEBUG")) (.bool true) (by decide)
  exact h.trans (by decide)

/-- C10: for a variable already present in the process environment,
load_dotenv with override_existing false leaves its value unchanged, while
override_existing true replaces it with the textual form of the value the
file assigns to it. -/
theorem C10_override_existing (text : List Nat) (env : EnvMap) (k oldv : List Nat)
    (hset : envGet env k = some oldv) :
    envGet (load_dotenv text false env).2 k = some oldv
    ∧ (∀ v : EnvValue, lastVal (parse_env text) k = some v →
        envGet (load_dotenv text true env).2 k = some (envString v)) := by
  constructor
  · unfold load_dotenv
    exact foldl_dotenv_false _ _ _ _ hset
  · intro v hv
    unfold load_dotenv
    rw [foldl_dotenv_true]
    simp [hv]

/-- Witness for C10: an existing DATABASE_URL survives override=false and is
replaced under override=true. -/
theorem C10_witness :
    envGet [(asciiBytes ("DATABASE_URL"), asciiBytes ("original"))] (asciiBytes ("DATABASE_URL"))
      = some (asciiBytes ("original"))
    ∧ envGet (load_dotenv (asciiBytes ("DATABASE_URL=pg")) false
        [(asciiBytes ("DATABASE_URL"), asciiBytes ("original"))]).2 (asciiBytes ("DATABASE_URL"))
      = some (asciiBytes ("original"))
    ∧ envGet (load_dotenv (asciiBytes ("DATABASE_URL=pg")) true
        [(asciiBytes ("DATABASE_URL"), asciiBytes ("original"))]).2 (asciiBytes ("DATABASE_URL"))
      = some (asciiBytes ("pg")) := by
  refine ⟨by decide, ?_, ?_⟩
  · exact (C10_override_existing (asciiBytes ("DATABASE_URL=pg"))
      [(asciiBytes ("DATABASE_URL"), asciiBytes ("original"))]
      (asciiBytes ("DATABASE_URL")) (asciiBytes ("original")) (by decide)).1
  · have h := (C10_override_existing (asciiBytes ("DATABASE_URL=pg"))
      [(asciiBytes ("DATABASE_URL"), asciiBytes ("original"))]
      (asciiBytes ("DATABASE_URL")) (asciiBytes ("original")) (by decide)).2
      (.str (asciiBytes ("pg"))) (by decide)
    exact h.trans (by decide)
